import Mathlib

/-!
# Game catalogue: normalisation, filtering and ordering (`src/Web/app.js`)

A shallow embedding of the pure core of `app.js`:
`detectPlatform`, `normalizeGame`, `filterGames` and `sortGames`.

Modelling conventions.

* Raw records are decoded JSON (`response.json()`), so a raw number is never `NaN`;
  it can be `±Infinity` (a literal such as `1e999` overflows).  `JNum` is the type of
  such numbers, `JSNum` adds `NaN` for the results of arithmetic.
* A finite number is the rational it denotes; the doubles are among the rationals, and
  what is proved for every rational price holds for every double.  `roundToDouble`
  rounds a rational to the nearest IEEE 754 double, ties to even, with overflow to
  `±Infinity`; `Number(...)` and the arithmetic of the discount round with it,
  operation by operation.  The sign of zero is not modelled.
* A sort comparator is a difference of which only the sign is read; rounding does not
  change the sign of a difference of doubles, so `JSNum.sub` there is the exact
  difference.
* A JSON object is the list of its entries, with distinct keys, in
  property-enumeration order (the order of `Object.entries`).
* `String.prototype.toLowerCase`, `String.prototype.localeCompare` and the conversion
  of an arbitrary value to a number are parameters (`Builtins`); of `toLowerCase` it is
  only assumed that on ASCII text it lower-cases the letters `A`-`Z` and changes
  nothing else.
* A raised `TypeError` is the `Except.error` result.
* `Array.prototype.sort` is a stable insertion sort that calls the comparator and
  treats a `NaN` answer as `0`, as ECMAScript prescribes.  For a consistent
  comparator this is the only result the language allows; for an inconsistent one (a
  `NaN` among the numbers sorted) the order is left to the engine, and the general
  statements below do not depend on it.
-/

namespace Paralellism

/-! ## Numbers -/

/-- A JavaScript number other than `NaN`. -/
inductive JNum where
  | ninf : JNum
  | fin (q : ℚ) : JNum
  | pinf : JNum
  deriving DecidableEq

/-- A JavaScript number. -/
inductive JSNum where
  | nan : JSNum
  | val (x : JNum) : JSNum
  deriving DecidableEq

namespace JNum

/-- The order of the numbers: `-Infinity < q < Infinity`. -/
def ble : JNum → JNum → Bool
  | ninf, _ => true
  | _, pinf => true
  | fin p, fin q => decide (p ≤ q)
  | _, _ => false

instance : LE JNum := ⟨fun a b => ble a b = true⟩

instance (a b : JNum) : Decidable (a ≤ b) := inferInstanceAs (Decidable (ble a b = true))

end JNum

/-- Rounding to the nearest integer, a half going to the even neighbour. -/
def roundHalfEven (m : ℚ) : ℤ :=
  let f := ⌊m⌋
  if m - f < 1 / 2 then f
  else if 1 / 2 < m - f then f + 1
  else if f % 2 = 0 then f else f + 1

/-- The spacing of the doubles at the positive rational `a`: `2 ^ (e - 52)` where
`2 ^ e ≤ a < 2 ^ (e + 1)`, and `2 ^ (-1074)` below the normal range. -/
def ulp (a : ℚ) : ℚ := (2 : ℚ) ^ (max (Int.log 2 a) (-1022) - 52)

/-- The double nearest to the rational `q`, ties to even; `±Infinity` when the rounded
magnitude reaches `2 ^ 1024`. -/
def roundToDouble (q : ℚ) : JNum :=
  if q = 0 then JNum.fin 0
  else
    let a := |q|
    let v := (roundHalfEven (a / ulp a) : ℚ) * ulp a
    if (2 : ℚ) ^ (1024 : ℤ) ≤ v then (if 0 < q then JNum.pinf else JNum.ninf)
    else JNum.fin (if 0 < q then v else -v)

namespace JSNum

/-- The result of an operation whose exact value is `x`: `x` rounded to a double. -/
def toDouble : JSNum → JSNum
  | val (JNum.fin q) => val (roundToDouble q)
  | x => x

/-- The number written `q`. -/
def ofRat (q : ℚ) : JSNum := val (JNum.fin q)

/-- The exact difference `a - b`; the operator `-` gives `toDouble` of it. -/
def sub : JSNum → JSNum → JSNum
  | val (JNum.fin p), val (JNum.fin q) => val (JNum.fin (p - q))
  | val (JNum.fin _), val JNum.pinf => val JNum.ninf
  | val (JNum.fin _), val JNum.ninf => val JNum.pinf
  | val JNum.pinf, val (JNum.fin _) => val JNum.pinf
  | val JNum.pinf, val JNum.ninf => val JNum.pinf
  | val JNum.ninf, val (JNum.fin _) => val JNum.ninf
  | val JNum.ninf, val JNum.pinf => val JNum.ninf
  | _, _ => nan

/-- The exact quotient `a / b` (a zero divisor is `+0`); the operator `/` gives
`toDouble` of it. -/
def div : JSNum → JSNum → JSNum
  | val (JNum.fin p), val (JNum.fin q) =>
      if q = 0 then
        (if p = 0 then nan else if 0 < p then val JNum.pinf else val JNum.ninf)
      else val (JNum.fin (p / q))
  | val (JNum.fin _), val JNum.pinf => val (JNum.fin 0)
  | val (JNum.fin _), val JNum.ninf => val (JNum.fin 0)
  | val JNum.pinf, val (JNum.fin q) => if 0 ≤ q then val JNum.pinf else val JNum.ninf
  | val JNum.ninf, val (JNum.fin q) => if 0 ≤ q then val JNum.ninf else val JNum.pinf
  | _, _ => nan

/-- The exact product `a * b`; the operator `*` gives `toDouble` of it. -/
def mul : JSNum → JSNum → JSNum
  | val (JNum.fin p), val (JNum.fin q) => val (JNum.fin (p * q))
  | val (JNum.fin p), val JNum.pinf =>
      if p = 0 then nan else if 0 < p then val JNum.pinf else val JNum.ninf
  | val (JNum.fin p), val JNum.ninf =>
      if p = 0 then nan else if 0 < p then val JNum.ninf else val JNum.pinf
  | val JNum.pinf, val (JNum.fin q) =>
      if q = 0 then nan else if 0 < q then val JNum.pinf else val JNum.ninf
  | val JNum.ninf, val (JNum.fin q) =>
      if q = 0 then nan else if 0 < q then val JNum.ninf else val JNum.pinf
  | val JNum.pinf, val JNum.pinf => val JNum.pinf
  | val JNum.ninf, val JNum.ninf => val JNum.pinf
  | val JNum.pinf, val JNum.ninf => val JNum.ninf
  | val JNum.ninf, val JNum.pinf => val JNum.ninf
  | _, _ => nan

/-- The function `Math.round`: the nearest integer, a half going up. -/
def round : JSNum → JSNum
  | val (JNum.fin q) => val (JNum.fin (⌊q + 1 / 2⌋ : ℤ))
  | x => x

/-- The operator `a > b`; false when either side is `NaN`. -/
def gt : JSNum → JSNum → Bool
  | val a, val b => !(JNum.ble a b)
  | _, _ => false

/-- The test `0 < x`, used on the answer of a sort comparator. -/
def isPos (x : JSNum) : Bool := gt x (ofRat 0)

/-- Truthiness of a number: `0` and `NaN` are falsy. -/
def truthy : JSNum → Bool
  | nan => false
  | val (JNum.fin q) => decide (q ≠ 0)
  | val _ => true

end JSNum

/-! ## Values -/

/-- A JavaScript value as far as decoded JSON and property reads produce them. -/
inductive JVal where
  | undefined : JVal
  | null : JVal
  | bool (b : Bool) : JVal
  | num (x : JNum) : JVal
  | str (s : String) : JVal
  | arr (xs : List JVal) : JVal
  | obj (kvs : List (String × JVal)) : JVal

/-- The error raised by a failing property read or method call. -/
inductive JSError where
  | typeError : JSError
  deriving DecidableEq

namespace JVal

/-- Truthiness, as used by `!x`, `x || y`, `x && y` and `find`. -/
def truthy : JVal → Bool
  | undefined => false
  | null => false
  | bool b => b
  | num x => JSNum.truthy (JSNum.val x)
  | str s => decide (s ≠ "")
  | arr _ => true
  | obj _ => true

/-- The test `v === undefined || v === null`. -/
def isNullish : JVal → Bool
  | undefined => true
  | null => true
  | _ => false

/-- The read `v.k` on a value that is not nullish, for the field names the program
uses (none of them is an index, `length` or a prototype member, so only an object
can hold it). -/
def get (v : JVal) (k : String) : JVal :=
  match v with
  | obj kvs =>
      match kvs.find? (fun e => e.1 == k) with
      | some e => e.2
      | none => undefined
  | _ => undefined

/-- The read `v.k`, which raises on `undefined` and `null`. -/
def getE (v : JVal) (k : String) : Except JSError JVal :=
  if v.isNullish then Except.error JSError.typeError else Except.ok (v.get k)

/-- The read `v?.k`. -/
def getOpt (v : JVal) (k : String) : JVal :=
  if v.isNullish then undefined else v.get k

/-- The operator `a || b`. -/
def orElse (a b : JVal) : JVal := if a.truthy then a else b

/-- The operator `a ?? b`. -/
def coalesce (a b : JVal) : JVal := if a.isNullish then b else a

/-- The call `Object.entries(v)` on a value that is not nullish. -/
def entries : JVal → List (String × JVal)
  | obj kvs => kvs
  | arr xs => xs.enum.map (fun e => (toString e.1, e.2))
  | str s => s.data.enum.map (fun e => (toString e.1, str (String.mk [e.2])))
  | _ => []

end JVal

/-! ## Strings -/

/-- Lower-casing of the letters `A`-`Z`, every other character unchanged. -/
def asciiLowerCase (s : String) : String := s.map Char.toLower

/-- Is every character of the string an ASCII character? -/
def isAscii (s : String) : Bool := s.data.all (fun c => decide (c.toNat < 128))

/-- The built-in functions that are taken as given: the method `s.toLowerCase()`, which
on ASCII text lower-cases the letters `A`-`Z` and changes nothing else; the method
`s.localeCompare(v)` on a string `s`; and the conversion of a value to a number that the
operator `-` applies to an operand. -/
structure Builtins where
  toLowerCase : String → String
  localeCompare : String → JVal → JSNum
  toNumber : JVal → JSNum
  lower_ascii : ∀ s : String, isAscii s = true → toLowerCase s = asciiLowerCase s

/-- Does the list `t` occur in `s` as a block of consecutive elements? -/
def includesList (s t : List Char) : Bool := s.tails.any (fun u => t.isPrefixOf u)

/-- The method `s.includes(t)`. -/
def includes (s t : String) : Bool := includesList s.data t.data

/-- White space and line terminators, the characters `trim` removes. -/
def isTrimChar (c : Char) : Bool :=
  let n := c.toNat
  (9 ≤ n && n ≤ 13) || n == 32 || n == 160 || n == 5760 || (8192 ≤ n && n ≤ 8202) ||
    n == 8232 || n == 8233 || n == 8239 || n == 8287 || n == 12288 || n == 65279

/-- The method `s.trim()`. -/
def trim (s : String) : String :=
  String.mk ((s.data.dropWhile isTrimChar).reverse.dropWhile isTrimChar).reverse

/-! ## Sorting -/

/-- The order a comparator asks for: `a` may stay before `b` unless the comparator
answers a positive number (a `NaN` answer counts as `0`). -/
def keeps {α : Type} (cmp : α → α → JSNum) (a b : α) : Prop := JSNum.isPos (cmp a b) = false

instance {α : Type} (cmp : α → α → JSNum) : DecidableRel (keeps cmp) :=
  fun a b => inferInstanceAs (Decidable (JSNum.isPos (cmp a b) = false))

/-- The method `l.sort(cmp)`. -/
def jsSort {α : Type} (cmp : α → α → JSNum) (l : List α) : List α :=
  l.insertionSort (keeps cmp)

/-! ## Platform detection -/

/-- The label that the PC rule (line 21) and the default (line 25) return. -/
def pcLabel : String := "🖥️ PC"

/-- The label of PlayStation. -/
def playStationLabel : String := "🎮 PlayStation"

/-- The label of Xbox. -/
def xboxLabel : String := "🎮 Xbox"

/-- The label of Switch. -/
def switchLabel : String := "🎮 Switch"

/-- The function `detectPlatform(url)`. -/
def detectPlatform (env : Builtins) (url : JVal) : Except JSError String :=
  if !url.truthy then Except.ok "PC"
  else
    match url with
    | JVal.str s =>
        let lowerUrl := env.toLowerCase s
        if includes lowerUrl "steam" || includes lowerUrl "pc" then Except.ok pcLabel
        else if includes lowerUrl "playstation" || includes lowerUrl "ps" then
          Except.ok playStationLabel
        else if includes lowerUrl "xbox" then Except.ok xboxLabel
        else if includes lowerUrl "switch" then Except.ok switchLabel
        else Except.ok pcLabel
    | _ => Except.error JSError.typeError

/-! ## Price text -/

/-- A character of the class `[\d.]`. -/
def isNumChar (c : Char) : Bool := c.isDigit || c == '.'

/-- The matches of `/[\d.]+/g`: the maximal runs of digits and dots, left to right;
`cur` is the run being read, last character first. -/
def matchRunsAux : List Char → List Char → List (List Char)
  | [], cur => if cur.isEmpty then [] else [cur.reverse]
  | c :: cs, cur =>
      if isNumChar c then matchRunsAux cs (c :: cur)
      else if cur.isEmpty then matchRunsAux cs []
      else cur.reverse :: matchRunsAux cs []

/-- The value `raw.match(/[\d.]+/g) || []`. -/
def matchRuns (raw : String) : List (List Char) := matchRunsAux raw.data []

/-- The natural number a string of decimal digits writes. -/
def digitsVal (ds : List Char) : ℕ := ds.foldl (fun n c => 10 * n + (c.toNat - 48)) 0

/-- The conversion `Number(tok)` of a run of digits and dots: for digits with at most
one dot and a digit on one side of it at least, the double nearest to the decimal
written; otherwise `NaN`. -/
def parseNumber (tok : List Char) : JSNum :=
  let ip := tok.takeWhile (fun c => c != '.')
  match tok.dropWhile (fun c => c != '.') with
  | [] => JSNum.val (roundToDouble (digitsVal ip))
  | _ :: fp =>
      if fp.contains '.' then JSNum.nan
      else if ip.isEmpty && fp.isEmpty then JSNum.nan
      else
        JSNum.val
          (roundToDouble ((digitsVal ip : ℚ) + (digitsVal fp : ℚ) / (10 : ℚ) ^ fp.length))

/-- The array `(raw.match(/[\d.]+/g) || []).map(Number)`. -/
def extractNumbers (raw : String) : List JSNum := (matchRuns raw).map parseNumber

/-- The array `numbers`: the extracted numbers after `.sort((a, b) => b - a)`, a
comparator of which the sort reads the sign. -/
def sortedNumbers (raw : String) : List JSNum :=
  jsSort (fun a b => JSNum.sub b a) (extractNumbers raw)

/-! ## Normalisation -/

/-- An element of `offers`; `price = none` is the value `null`. -/
structure Offer where
  storeKey : String
  storeName : JVal
  url : JVal
  price : Option JNum
  priceRaw : JVal

/-- The conversion to a number of a price (`null` converts to `0`). -/
def priceNum : Option JNum → JSNum
  | some x => JSNum.val x
  | none => JSNum.ofRat 0

/-- The test `typeof v === 'number' ? v : null`. -/
def numberOrNull : JVal → Option JNum
  | JVal.num x => some x
  | _ => none

/-- The callback of `map` in `normalizeGame`: the candidate offer of one store. -/
def mkOffer (e : String × JVal) : Except JSError Offer := do
  let storeName ← e.2.getE "StoreName"
  let url ← e.2.getE "Url"
  let priceNumber ← e.2.getE "PriceNumber"
  let priceRaw ← e.2.getE "PriceRaw"
  pure ⟨e.1, storeName, url.orElse JVal.null, numberOrNull priceNumber,
    priceRaw.orElse JVal.null⟩

/-- The object the callback of `map` builds from a store that is not nullish. -/
def offerOf (e : String × JVal) : Offer :=
  ⟨e.1, e.2.get "StoreName", (e.2.get "Url").orElse JVal.null,
    numberOrNull (e.2.get "PriceNumber"), (e.2.get "PriceRaw").orElse JVal.null⟩

/-- The test `typeof store.PriceNumber === 'number'` on an entry of the store map. -/
def hasNumericPrice (e : String × JVal) : Bool :=
  match e.2.get "PriceNumber" with
  | JVal.num _ => true
  | _ => false

/-- The array `offers` as first built: the candidates that have a price, in the order
of `Object.entries(stores)`. -/
def extractOffers (stores : JVal) : Except JSError (List Offer) := do
  let candidates ← stores.entries.mapM mkOffer
  pure (candidates.filter (fun offer => offer.price.isSome))

/-- The comparator `(a, b) => a.price - b.price`, of which the sort reads the sign. -/
def priceCmp (a b : Offer) : JSNum := JSNum.sub (priceNum a.price) (priceNum b.price)

/-- The value `offers.find(o => o.priceRaw)?.priceRaw || ''`. -/
def chosenRaw (offers : List Offer) : JVal :=
  match offers.find? (fun o => o.priceRaw.truthy) with
  | some o => o.priceRaw.orElse (JVal.str "")
  | none => JVal.str ""

/-- The body of `if (bestOffer && offers.length > 0)`: the regular price read from
the chosen price text; `raw.match` raises when `raw` is not a string. -/
def inferRegularPrice (offers : List Offer) (bestOffer : Offer) :
    Except JSError (Option JSNum) :=
  match chosenRaw offers with
  | JVal.str raw =>
      Except.ok ((sortedNumbers raw).find? (fun n => JSNum.gt n (priceNum bestOffer.price)))
  | _ => Except.error JSError.typeError

/-- The value `Math.round((1 - bestOffer.price / regularPrice) * 100)`, the quotient,
the difference and the product each rounded to a double. -/
def discountOf (bestOffer : Offer) (regularPrice : JSNum) : JSNum :=
  let quotient := JSNum.toDouble (JSNum.div (priceNum bestOffer.price) regularPrice)
  let difference := JSNum.toDouble (JSNum.sub (JSNum.ofRat 1) quotient)
  let product := JSNum.toDouble (JSNum.mul difference (JSNum.ofRat 100))
  JSNum.round product

/-- The value `(bestOffer && regularPrice) ? Math.round(...) : null`. -/
def discountPercentOf (bestOffer : Option Offer) (regularPrice : Option JSNum) :
    Option JSNum :=
  match bestOffer, regularPrice with
  | some b, some r => if r.truthy then some (discountOf b r) else none
  | _, _ => none

/-- The record `normalizeGame` returns. -/
structure Game where
  id : JVal
  title : JVal
  coverUrl : JVal
  rating : JVal
  avgHours : JVal
  reviewCount : JVal
  sourceUrl : JVal
  platform : String
  offers : List Offer
  bestOffer : Option Offer
  regularPrice : Option JSNum
  discountPercent : Option JSNum

/-- The array `offers` after the statement that selects the best offer: sorted in
place by `offers.sort((a, b) => a.price - b.price)` when it is not empty. -/
def offersAfterSort (extracted : List Offer) : List Offer :=
  if extracted.length > 0 then jsSort priceCmp extracted else extracted

/-- The value `offers.length > 0 ? offers.sort(...)[0] : null`. -/
def bestOfferOf (extracted : List Offer) : Option Offer :=
  if extracted.length > 0 then (jsSort priceCmp extracted).head? else none

/-- The variable `regularPrice`: `null` unless `bestOffer && offers.length > 0`. -/
def regularPriceOf (offers : List Offer) (bestOffer : Option Offer) :
    Except JSError (Option JSNum) :=
  match bestOffer with
  | some b => if offers.length > 0 then inferRegularPrice offers b else Except.ok none
  | none => Except.ok none

/-- The function `normalizeGame(rawGame)`.  The array `offers` is sorted in place
when it is not empty, so what follows the sort reads the sorted array. -/
def normalizeGame (env : Builtins) (rawGame : JVal) : Except JSError Game := do
  let tiendas ← rawGame.getE "Tiendas"
  let stores := tiendas.orElse (JVal.obj [])
  let extracted ← extractOffers stores
  let bestOffer := bestOfferOf extracted
  let offers := offersAfterSort extracted
  let regularPrice ← regularPriceOf offers bestOffer
  let discountPercent := discountPercentOf bestOffer regularPrice
  let platform ← detectPlatform env (rawGame.get "FuenteInicialUrl")
  pure
    ⟨rawGame.get "Nombre", rawGame.get "Nombre",
      (rawGame.get "ImagenUrl").orElse (JVal.str ""),
      ((rawGame.get "Analisis").getOpt "Calificacion").coalesce JVal.null,
      ((rawGame.get "Analisis").getOpt "HorasPromedio").coalesce JVal.null,
      ((rawGame.get "Analisis").getOpt "CantidadResenas").coalesce JVal.null,
      (rawGame.get "FuenteInicialUrl").orElse JVal.null,
      platform, offers, bestOffer, regularPrice, discountPercent⟩

/-! ## The collection view -/

/-- The value `g.bestOffer?.price ?? d`. -/
def priceOr (d : JNum) (g : Game) : JNum :=
  match g.bestOffer with
  | some b =>
      match b.price with
      | some x => x
      | none => d
  | none => d

/-- The effective price of the ascending order: `g.bestOffer?.price ?? Infinity`. -/
def effectivePrice (g : Game) : JNum := priceOr JNum.pinf g

/-- The value `g.rating ?? 0`, converted to a number. -/
def ratingOr0 (env : Builtins) (g : Game) : JSNum :=
  if g.rating.isNullish then JSNum.ofRat 0 else env.toNumber g.rating

/-- The value `g.discountPercent ?? 0`. -/
def discountOr0 (g : Game) : JSNum :=
  match g.discountPercent with
  | some x => x
  | none => JSNum.ofRat 0

/-- The comparator `(a, b) => a.title.localeCompare(b.title)` on a string title. -/
def nameCmp (env : Builtins) (a b : Game) : JSNum :=
  match a.title with
  | JVal.str s => env.localeCompare s b.title
  | _ => JSNum.nan

/-- Is the title a string? -/
def hasStringTitle (g : Game) : Bool :=
  match g.title with
  | JVal.str _ => true
  | _ => false

/-- The function `sortGames()`: the new value of `filteredGames` for the selected key
`sortSelect.value`.  A key outside the five cases leaves the list as it is.  The name
comparator raises when its receiver title is not a string; which records are receivers
depends on the engine, and here the call raises as soon as two records are compared and
some title is not a string. -/
def sortGames (env : Builtins) (sortBy : String) (filteredGames : List Game) :
    Except JSError (List Game) :=
  match sortBy with
  | "name" =>
      if filteredGames.length ≤ 1 || filteredGames.all hasStringTitle then
        Except.ok (jsSort (nameCmp env) filteredGames)
      else Except.error JSError.typeError
  | "priceAsc" =>
      Except.ok (jsSort
        (fun a b => JSNum.sub (JSNum.val (effectivePrice a)) (JSNum.val (effectivePrice b)))
        filteredGames)
  | "priceDesc" =>
      Except.ok (jsSort
        (fun a b =>
          JSNum.sub (JSNum.val (priceOr (JNum.fin 0) b)) (JSNum.val (priceOr (JNum.fin 0) a)))
        filteredGames)
  | "ratingDesc" =>
      Except.ok (jsSort (fun a b => JSNum.sub (ratingOr0 env b) (ratingOr0 env a))
        filteredGames)
  | "discountDesc" =>
      Except.ok (jsSort (fun a b => JSNum.sub (discountOr0 b) (discountOr0 a)) filteredGames)
  | _ => Except.ok filteredGames

/-- The callback of `filter` in `filterGames`:
`game.title.toLowerCase().includes(searchTerm)`, which raises when the title is not a
string. -/
def titleMatches (env : Builtins) (searchTerm : String) (game : Game) :
    Except JSError Bool :=
  match game.title with
  | JVal.str t => Except.ok (includes (env.toLowerCase t) searchTerm)
  | _ => Except.error JSError.typeError

/-- The call `allGames.filter(game => ...)`. -/
def filterTitles (env : Builtins) (searchTerm : String) :
    List Game → Except JSError (List Game)
  | [] => Except.ok []
  | game :: rest => do
      let keep ← titleMatches env searchTerm game
      let kept ← filterTitles env searchTerm rest
      pure (if keep then game :: kept else kept)

/-- The function `filterGames()`: the new value of `filteredGames` from `allGames`, the
text of the search box and the selected sort key. -/
def filterGames (env : Builtins) (allGames : List Game) (searchValue sortBy : String) :
    Except JSError (List Game) := do
  let searchTerm := trim (env.toLowerCase searchValue)
  let filteredGames ← filterTitles env searchTerm allGames
  sortGames env sortBy filteredGames

/-! ## The platform rules as the specification words them -/

/-- The rules of platform inference, in priority order: the words looked for in the
lower-cased URL and the label of the platform. -/
def platformRules : List (List String × String) :=
  [(["steam", "pc"], pcLabel), (["playstation", "ps"], playStationLabel),
    (["xbox"], xboxLabel), (["switch"], switchLabel)]

/-- The label of the first rule one of whose words occurs in the lower-cased URL,
the PC label when no rule matches. -/
def firstRuleLabel (lowerUrl : String) : String :=
  match platformRules.find? (fun r => r.1.any (fun w => includes lowerUrl w)) with
  | some r => r.2
  | none => pcLabel

instance {ε α : Type} [DecidableEq ε] [DecidableEq α] : DecidableEq (Except ε α)
  | Except.ok a, Except.ok b => decidable_of_iff (a = b) (by simp)
  | Except.error a, Except.error b => decidable_of_iff (a = b) (by simp)
  | Except.ok _, Except.error _ => isFalse (by simp)
  | Except.error _, Except.ok _ => isFalse (by simp)

/-! ## Notions used to state the properties -/

/-- A comparator that subtracts the keys of its arguments. -/
def KeyCmp {α : Type} (cmp : α → α → JSNum) (k : α → JNum) : Prop :=
  ∀ a b, cmp a b = JSNum.sub (JSNum.val (k a)) (JSNum.val (k b))

/-- The price of an offer as a number other than `NaN` (`null` counts as `0`). -/
def priceKey (p : Option JNum) : JNum :=
  match p with
  | some x => x
  | none => JNum.fin 0

/-- The store map `rawGame.Tiendas || {}`. -/
def storesOf (rawGame : JVal) : JVal := (rawGame.get "Tiendas").orElse (JVal.obj [])

/-- Is the `PriceNumber` of an entry of the store map a finite number? -/
def hasFinitePrice (e : String × JVal) : Bool :=
  match e.2.get "PriceNumber" with
  | JVal.num (JNum.fin _) => true
  | _ => false

/-! ## Example records -/

/-- Scenario A: one store with the price 13.49 and the price text "$14.99$13.49". -/
def rawScenarioA : JVal :=
  JVal.obj [("Nombre", JVal.str "Hades"),
    ("Tiendas", JVal.obj [("steamStore", JVal.obj [("StoreName", JVal.str "Steam"),
      ("PriceNumber", JVal.num (roundToDouble 13.49)), ("PriceRaw", JVal.str "$14.99$13.49")])])]

/-- Scenario B: a store at 9.99 without price text and a store at 12.00 with the price
text "12.00". -/
def rawScenarioB : JVal :=
  JVal.obj [("Nombre", JVal.str "Celeste"),
    ("Tiendas", JVal.obj [
      ("first", JVal.obj [("StoreName", JVal.str "First"),
        ("PriceNumber", JVal.num (roundToDouble 9.99))]),
      ("second", JVal.obj [("StoreName", JVal.str "Second"),
        ("PriceNumber", JVal.num (JNum.fin 12)), ("PriceRaw", JVal.str "12.00")])])]

/-- A store map with a finite price, a price that overflowed to `Infinity`, a price
given as a string and a store without price. -/
def rawMixedPrices : JVal :=
  JVal.obj [("Nombre", JVal.str "Mixed"),
    ("Tiendas", JVal.obj [
      ("a", JVal.obj [("PriceNumber", JVal.num (JNum.fin 5))]),
      ("b", JVal.obj [("PriceNumber", JVal.num JNum.pinf)]),
      ("c", JVal.obj [("PriceNumber", JVal.str "12")]),
      ("d", JVal.obj [("StoreName", JVal.str "No price")])])]

/-- A record whose only store has the price `Infinity` (the JSON literal `1e999`). -/
def rawInfinitePrice : JVal :=
  JVal.obj [("Nombre", JVal.str "Overflow"),
    ("Tiendas", JVal.obj [("s", JVal.obj [("PriceNumber", JVal.num JNum.pinf)])])]

/-- A value that is absent (falsy) or a string. -/
def isTextOrFalsy (v : JVal) : Bool :=
  match v with
  | JVal.str _ => true
  | w => !w.truthy

/-- A raw record within the data model: the record itself and the entries of its store
map are not `null`, and the price text of a store and the source URL are strings when
they are present.  Every other field may be missing or of any type. -/
def WellFormedRaw (raw : JVal) : Prop :=
  raw.isNullish = false ∧
    (∀ e ∈ (storesOf raw).entries,
      e.2.isNullish = false ∧ isTextOrFalsy (e.2.get "PriceRaw") = true) ∧
    isTextOrFalsy (raw.get "FuenteInicialUrl") = true

/-- A record with an empty store entry and an entry whose price text is malformed. -/
def rawMalformedText : JVal :=
  JVal.obj [("Tiendas", JVal.obj [
    ("a", JVal.obj []),
    ("b", JVal.obj [("PriceNumber", JVal.num (JNum.fin 3)),
      ("PriceRaw", JVal.str "n/a 1.2.3 .. 7.")])])]

/-- A record whose store gives the price text as a number instead of a string. -/
def rawNumericPriceText : JVal :=
  JVal.obj [("Nombre", JVal.str "Typed"),
    ("Tiendas", JVal.obj [("s", JVal.obj [("PriceNumber", JVal.num (JNum.fin 5)),
      ("PriceRaw", JVal.num (JNum.fin 1499))])])]

/-- A record one of whose store entries is `null`. -/
def rawNullStore : JVal :=
  JVal.obj [("Nombre", JVal.str "Hole"), ("Tiendas", JVal.obj [("s", JVal.null)])]

/-- A record whose store has the price -1 and the price text "0". -/
def rawZeroRegular : JVal :=
  JVal.obj [("Nombre", JVal.str "Zero"),
    ("Tiendas", JVal.obj [("s", JVal.obj [("PriceNumber", JVal.num (JNum.fin (-1))),
      ("PriceRaw", JVal.str "0")])])]

/-- Among the offers that have a price text, taken in the order of the store map, the
one with the lowest price, and the earliest of them when several have that price. -/
def lowestPricedWithText : List Offer → Option Offer
  | [] => none
  | o :: rest =>
      match lowestPricedWithText rest with
      | none => if o.priceRaw.truthy then some o else none
      | some b =>
          if o.priceRaw.truthy && JNum.ble (priceKey o.price) (priceKey b.price) then some o
          else some b

/-- The string a value is, if it is one. -/
def textOf : JVal → Option String
  | JVal.str s => some s
  | _ => none

/-- Two stores with price texts: the first of the map is the dearer one. -/
def rawTextOrder : JVal :=
  JVal.obj [("Nombre", JVal.str "Order"),
    ("Tiendas", JVal.obj [
      ("a", JVal.obj [("PriceNumber", JVal.num (JNum.fin 12)), ("PriceRaw", JVal.str "$20.00")]),
      ("b", JVal.obj [("PriceNumber", JVal.num (roundToDouble 9.99)),
        ("PriceRaw", JVal.str "$15.00")])])]

/-- Does the lower-cased title of the record contain the term?  False when the title is
not a string. -/
def titleIncludes (env : Builtins) (term : String) (g : Game) : Bool :=
  match g.title with
  | JVal.str t => includes (env.toLowerCase t) term
  | _ => false

/-- A record with the given title and no offer. -/
def gameTitled (t : String) : Game :=
  ⟨JVal.str t, JVal.str t, JVal.str "", JVal.null, JVal.null, JVal.null, JVal.null, "PC", [],
    none, none, none⟩

/-- The collection of scenario E. -/
def gamesScenarioE : List Game :=
  [gameTitled "The Legend of Zelda", gameTitled "zelda 2", gameTitled "Mario"]

/-- Built-in functions for the examples, which are ASCII text: lower-casing of the
letters `A`-`Z`; every comparison of titles answers `0` and no value converts to a
number. -/
def exampleBuiltins : Builtins :=
  ⟨asciiLowerCase, fun _ _ => JSNum.ofRat 0, fun _ => JSNum.nan, fun _ _ => rfl⟩

/-- The titles of a list of records. -/
def titlesOf (l : List Game) : List (Option String) := l.map (fun g => textOf g.title)

/-- A record whose price text has a run of dots between two prices. -/
def rawDottedText : JVal :=
  JVal.obj [("Nombre", JVal.str "Dots"),
    ("Tiendas", JVal.obj [("s", JVal.obj [("PriceNumber", JVal.num (JNum.fin 4)),
      ("PriceRaw", JVal.str "$5.00 ... $10.00")])])]

/-- A record with the given title and one offer at the given price. -/
def gamePriced (t : String) (p : JNum) : Game :=
  ⟨JVal.str t, JVal.str t, JVal.str "", JVal.null, JVal.null, JVal.null, JVal.null, "PC",
    [⟨"s", JVal.str "Store", JVal.null, some p, JVal.null⟩],
    some ⟨"s", JVal.str "Store", JVal.null, some p, JVal.null⟩, none, none⟩

/-- A collection with two records without offer and two records with a price. -/
def gamesPriced : List Game :=
  [gameTitled "No offer", gamePriced "Twelve" (JNum.fin 12), gameTitled "Unpriced",
    gamePriced "Five" (roundToDouble 4.99)]

/-- A record whose store has the price 13.50 and the price text "20.00": the exact
discount is 32.5 percent. -/
def rawHalfDiscount : JVal :=
  JVal.obj [("Nombre", JVal.str "Half"),
    ("Tiendas", JVal.obj [("s", JVal.obj [("PriceNumber", JVal.num (JNum.fin 13.5)),
      ("PriceRaw", JVal.str "20.00")])])]

/-- A record whose source URL is a number instead of a string. -/
def rawNumericUrl : JVal :=
  JVal.obj [("Nombre", JVal.str "Link"), ("FuenteInicialUrl", JVal.num (JNum.fin 5)),
    ("Tiendas", JVal.obj [])]

/-! ## Facts about strings -/

theorem includesList_iff (s t : List Char) : includesList s t = true ↔ t <:+: s := by
  unfold includesList
  rw [List.any_eq_true, List.infix_iff_prefix_suffix]
  constructor
  · rintro ⟨u, hu, hp⟩
    exact ⟨u, List.isPrefixOf_iff_prefix.mp hp, (List.mem_tails _ _).mp hu⟩
  · rintro ⟨u, hp, hu⟩
    exact ⟨u, (List.mem_tails _ _).mpr hu, List.isPrefixOf_iff_prefix.mpr hp⟩

theorem includes_trans {s t u : String} (h₁ : includes s t = true)
    (h₂ : includes t u = true) : includes s u = true := by
  unfold includes at *
  rw [includesList_iff] at *
  exact List.IsInfix.trans h₂ h₁

/-! ## Platform detection -/

theorem lower_empty (env : Builtins) : env.toLowerCase "" = "" := by
  rw [env.lower_ascii "" (by decide)]
  decide!

theorem detectPlatform_ascii (env : Builtins) (s : String) (h : isAscii s = true) :
    detectPlatform env (JVal.str s) = detectPlatform exampleBuiltins (JVal.str s) := by
  have he : exampleBuiltins.toLowerCase s = asciiLowerCase s := rfl
  simp only [detectPlatform, env.lower_ascii s h, he]

theorem detectPlatform_falsy (env : Builtins) (v : JVal) (h : v.truthy = false) :
    detectPlatform env v = Except.ok "PC" := by
  simp [detectPlatform, h]

theorem detectPlatform_str (env : Builtins) (s : String) (h : s ≠ "") :
    detectPlatform env (JVal.str s) = Except.ok (firstRuleLabel (env.toLowerCase s)) := by
  simp only [detectPlatform, JVal.truthy, firstRuleLabel, platformRules, List.find?, List.any,
    decide_eq_true h, Bool.not_true, Bool.or_false]
  by_cases h1 :
      (includes (env.toLowerCase s) "steam" || includes (env.toLowerCase s) "pc") = true
  · simp [h1]
  · by_cases h2 :
        (includes (env.toLowerCase s) "playstation" || includes (env.toLowerCase s) "ps")
          = true
    · simp [h1, h2]
    · by_cases h3 : includes (env.toLowerCase s) "xbox" = true
      · simp [h1, h2, h3]
      · by_cases h4 : includes (env.toLowerCase s) "switch" = true
        · simp [h1, h2, h3, h4]
        · simp [h1, h2, h3, h4]

/-- C5: for a URL that is a non-empty string `detectPlatform` returns the label of the
first rule its lower-cased form matches, in the order PC, PlayStation, Xbox, Switch, and
the PC label when no rule matches (so the PlayStation URL with "xbox" in it resolves to
PlayStation); but for an absent URL (`undefined`, `null` or the empty string) it returns
the text "PC", which is not the PC label that the PC rule and the no-match default
return.  This holds whatever the built-in functions are. -/
theorem detectPlatform_absent_url_label :
    (∀ (env : Builtins) (s : String), s ≠ "" →
        detectPlatform env (JVal.str s) = Except.ok (firstRuleLabel (env.toLowerCase s))) ∧
      (∀ env : Builtins,
        detectPlatform env (JVal.str "https://store.playstation.com/xbox-bundle")
          = Except.ok playStationLabel) ∧
      (∀ env : Builtins,
        detectPlatform env (JVal.str "http://example.com/game") = Except.ok pcLabel) ∧
      (∀ env : Builtins, detectPlatform env JVal.undefined = Except.ok "PC") ∧
      (∀ env : Builtins, detectPlatform env JVal.null = Except.ok "PC") ∧
      (∀ env : Builtins, detectPlatform env (JVal.str "") = Except.ok "PC") ∧
      "PC" ≠ pcLabel := by
  refine ⟨detectPlatform_str, ?_, ?_, ?_, ?_, ?_, by decide⟩
  · intro env
    rw [detectPlatform_ascii env _ (by decide)]
    decide!
  · intro env
    rw [detectPlatform_ascii env _ (by decide)]
    decide!
  · exact fun env => detectPlatform_falsy env _ rfl
  · exact fun env => detectPlatform_falsy env _ rfl
  · exact fun env => detectPlatform_falsy env _ (by decide)

/-- C9: a URL whose lower-cased form contains "https" gets the PC label or the
PlayStation label; and whenever `detectPlatform` answers Xbox or Switch, the URL is a
string whose lower-cased form contains none of "steam", "pc", "playstation", "ps".
This holds whatever the built-in functions are. -/
theorem detectPlatform_https_never_xbox_switch :
    (∀ (env : Builtins) (s : String), includes (env.toLowerCase s) "https" = true →
        detectPlatform env (JVal.str s) = Except.ok pcLabel ∨
          detectPlatform env (JVal.str s) = Except.ok playStationLabel) ∧
      (∀ (env : Builtins) (url : JVal),
        detectPlatform env url = Except.ok xboxLabel ∨
            detectPlatform env url = Except.ok switchLabel →
          ∃ s : String, url = JVal.str s ∧
            includes (env.toLowerCase s) "steam" = false ∧
            includes (env.toLowerCase s) "pc" = false ∧
            includes (env.toLowerCase s) "playstation" = false ∧
            includes (env.toLowerCase s) "ps" = false) := by
  have hx : xboxLabel ≠ "PC" ∧ switchLabel ≠ "PC" ∧ xboxLabel ≠ pcLabel ∧
      switchLabel ≠ pcLabel ∧ xboxLabel ≠ playStationLabel ∧
      switchLabel ≠ playStationLabel := by decide
  obtain ⟨x1, x2, x3, x4, x5, x6⟩ := hx
  have hfalsy : ∀ (env : Builtins) (v : JVal), v.truthy = false →
      ¬ (detectPlatform env v = Except.ok xboxLabel ∨
        detectPlatform env v = Except.ok switchLabel) := by
    intro env v hv h
    rw [detectPlatform_falsy env v hv] at h
    rcases h with h | h
    · injection h with h; exact x1 h.symm
    · injection h with h; exact x2 h.symm
  constructor
  · intro env s hs
    have hne : s ≠ "" := by
      rintro rfl
      rw [lower_empty] at hs
      exact absurd hs (by decide)
    have hps : includes (env.toLowerCase s) "ps" = true := includes_trans hs (by decide)
    simp only [detectPlatform, JVal.truthy, decide_eq_true hne, Bool.not_true]
    by_cases h1 :
        (includes (env.toLowerCase s) "steam" || includes (env.toLowerCase s) "pc") = true
    · simp [h1]
    · simp [h1, hps]
  · intro env url h
    cases url with
    | str s =>
      refine ⟨s, rfl, ?_⟩
      by_cases hne : s = ""
      · subst hne
        exact absurd h (hfalsy env _ (by decide))
      · simp only [detectPlatform, JVal.truthy, decide_eq_true hne, Bool.not_true] at h
        by_cases h1 :
            (includes (env.toLowerCase s) "steam" || includes (env.toLowerCase s) "pc")
              = true
        · simp [h1, Ne.symm x3, Ne.symm x4] at h
        · by_cases h2 :
              (includes (env.toLowerCase s) "playstation" ||
                includes (env.toLowerCase s) "ps") = true
          · simp [h1, h2, Ne.symm x5, Ne.symm x6] at h
          · simp only [Bool.or_eq_true, not_or, Bool.not_eq_true] at h1 h2
            exact ⟨h1.1, h1.2, h2.1, h2.2⟩
    | undefined => exact absurd h (hfalsy env _ rfl)
    | null => exact absurd h (hfalsy env _ rfl)
    | bool b =>
      cases b
      · exact absurd h (hfalsy env _ rfl)
      · rcases h with h | h <;> simp [detectPlatform, JVal.truthy] at h
    | num x =>
      by_cases ht : (JVal.num x).truthy = true
      · rcases h with h | h <;> simp [detectPlatform, ht] at h
      · exact absurd h (hfalsy env _ (by simpa using ht))
    | arr xs => rcases h with h | h <;> simp [detectPlatform, JVal.truthy] at h
    | obj kvs => rcases h with h | h <;> simp [detectPlatform, JVal.truthy] at h

theorem detectPlatform_https_never_xbox_switch_witness :
    includes (exampleBuiltins.toLowerCase "HTTPS://www.xbox.com/switch") "https" = true ∧
      (detectPlatform exampleBuiltins (JVal.str "HTTPS://www.xbox.com/switch")
          = Except.ok pcLabel ∨
        detectPlatform exampleBuiltins (JVal.str "HTTPS://www.xbox.com/switch")
          = Except.ok playStationLabel) ∧
      detectPlatform exampleBuiltins (JVal.str "http://www.xbox.com/") = Except.ok xboxLabel ∧
      (∃ s : String, JVal.str "http://www.xbox.com/" = JVal.str s ∧
        includes (exampleBuiltins.toLowerCase s) "steam" = false ∧
        includes (exampleBuiltins.toLowerCase s) "pc" = false ∧
        includes (exampleBuiltins.toLowerCase s) "playstation" = false ∧
        includes (exampleBuiltins.toLowerCase s) "ps" = false) :=
  ⟨by decide!, detectPlatform_https_never_xbox_switch.1 _ _ (by decide!), by decide!,
    detectPlatform_https_never_xbox_switch.2 _ _ (Or.inl (by decide!))⟩

/-! ## The order of numbers and sorting -/

namespace JNum

theorem le_iff_ble (a b : JNum) : a ≤ b ↔ ble a b = true := Iff.rfl

theorem le_total' (a b : JNum) : a ≤ b ∨ b ≤ a := by
  cases a <;> cases b <;> simp [le_iff_ble, ble, le_total]

theorem le_trans' {a b c : JNum} (h₁ : a ≤ b) (h₂ : b ≤ c) : a ≤ c := by
  cases a <;> cases b <;> cases c <;> simp_all [le_iff_ble, ble]
  exact le_trans h₁ h₂

end JNum

theorem isPos_sub_val (x y : JNum) :
    JSNum.isPos (JSNum.sub (JSNum.val x) (JSNum.val y)) = !(JNum.ble x y) := by
  cases x <;> cases y <;> simp [JSNum.isPos, JSNum.sub, JSNum.gt, JSNum.ofRat, JNum.ble]

theorem keeps_iff {α : Type} {cmp : α → α → JSNum} {k : α → JNum} (h : KeyCmp cmp k)
    (a b : α) : keeps cmp a b ↔ k a ≤ k b := by
  unfold keeps
  rw [h a b, isPos_sub_val, JNum.le_iff_ble]
  simp

theorem jsSort_perm {α : Type} (cmp : α → α → JSNum) (l : List α) : (jsSort cmp l).Perm l :=
  List.perm_insertionSort _ l

theorem jsSort_sorted {α : Type} {cmp : α → α → JSNum} {k : α → JNum} (h : KeyCmp cmp k)
    (l : List α) : (jsSort cmp l).Pairwise (fun a b => k a ≤ k b) := by
  have ht : IsTotal α (keeps cmp) :=
    ⟨fun a b => by rw [keeps_iff h, keeps_iff h]; exact JNum.le_total' _ _⟩
  have hr : IsTrans α (keeps cmp) :=
    ⟨fun a b c => by rw [keeps_iff h, keeps_iff h, keeps_iff h]; exact JNum.le_trans'⟩
  have hs : List.Sorted (keeps cmp) (jsSort cmp l) := List.sorted_insertionSort (keeps cmp) l
  exact List.Pairwise.imp (fun {a b} hab => (keeps_iff h a b).mp hab) hs

theorem priceNum_eq (p : Option JNum) : priceNum p = JSNum.val (priceKey p) := by
  cases p <;> rfl

theorem priceCmp_key : KeyCmp priceCmp (fun o => priceKey o.price) := by
  intro a b
  simp only [priceCmp, priceNum_eq]

/-! ## The structure of `normalizeGame` -/

theorem normalizeGame_builtins_irrelevant (env env' : Builtins) (raw : JVal)
    (h : (raw.get "FuenteInicialUrl").truthy = false) :
    normalizeGame env raw = normalizeGame env' raw := by
  unfold normalizeGame
  rw [detectPlatform_falsy env _ h, detectPlatform_falsy env' _ h]

theorem normalizeGame_ok {env : Builtins} {raw : JVal} {g : Game} (h : normalizeGame env raw = Except.ok g) :
    ∃ extracted : List Offer,
      raw.isNullish = false ∧
      extractOffers (storesOf raw) = Except.ok extracted ∧
      g.offers = offersAfterSort extracted ∧
      g.bestOffer = bestOfferOf extracted ∧
      regularPriceOf g.offers g.bestOffer = Except.ok g.regularPrice ∧
      g.discountPercent = discountPercentOf g.bestOffer g.regularPrice ∧
      detectPlatform env (raw.get "FuenteInicialUrl") = Except.ok g.platform := by
  unfold normalizeGame at h
  simp only [JVal.getE, bind, Except.bind, pure, Except.pure] at h
  split at h
  · simp at h
  · rename_i v hv
    split at hv
    · simp at hv
    · rename_i hn
      injection hv with hv
      subst hv
      split at h
      · simp at h
      · rename_i extracted hex
        split at h
        · simp at h
        · rename_i rp hrp
          split at h
          · simp at h
          · rename_i pf hpf
            injection h with h
            subst h
            exact ⟨extracted, by simpa using hn, hex, rfl, rfl, hrp, rfl, hpf⟩

theorem normalizeGame_returns {env : Builtins} {raw : JVal} {extracted : List Offer} {rp : Option JSNum}
    {pf : String} (hn : raw.isNullish = false)
    (hex : extractOffers (storesOf raw) = Except.ok extracted)
    (hrp : regularPriceOf (offersAfterSort extracted) (bestOfferOf extracted) = Except.ok rp)
    (hpf : detectPlatform env (raw.get "FuenteInicialUrl") = Except.ok pf) :
    ∃ g : Game, normalizeGame env raw = Except.ok g := by
  unfold storesOf at hex
  unfold normalizeGame
  simp [JVal.getE, bind, Except.bind, pure, Except.pure, hn, hex, hrp, hpf]

theorem mkOffer_eq (e : String × JVal) :
    mkOffer e = if e.2.isNullish then Except.error JSError.typeError else Except.ok (offerOf e) := by
  unfold mkOffer offerOf JVal.getE
  by_cases h : e.2.isNullish = true
  · simp [h, bind, Except.bind]
  · simp [h, bind, Except.bind, pure, Except.pure]

theorem mapM_mkOffer_ok (es : List (String × JVal)) (h : ∀ e ∈ es, e.2.isNullish = false) :
    es.mapM mkOffer = Except.ok (es.map offerOf) := by
  induction es with
  | nil => rfl
  | cons e es ih =>
    have h1 : e.2.isNullish = false := h e (List.mem_cons_self _ _)
    have h2 := ih (fun x hx => h x (List.mem_cons_of_mem _ hx))
    rw [List.mapM_cons, h2, mkOffer_eq]
    simp [h1, bind, Except.bind, pure, Except.pure]

theorem mapM_mkOffer_error (es : List (String × JVal)) (h : ∃ e ∈ es, e.2.isNullish = true) :
    es.mapM mkOffer = Except.error JSError.typeError := by
  induction es with
  | nil => simp at h
  | cons e es ih =>
    rw [List.mapM_cons, mkOffer_eq]
    by_cases h1 : e.2.isNullish = true
    · simp [h1, bind, Except.bind]
    · have h2 : ∃ x ∈ es, x.2.isNullish = true := by
        obtain ⟨x, hx, hxn⟩ := h
        rcases List.mem_cons.mp hx with rfl | hx
        · exact absurd hxn h1
        · exact ⟨x, hx, hxn⟩
      rw [ih h2]
      simp [h1, bind, Except.bind]

theorem extractOffers_ok (stores : JVal) (h : ∀ e ∈ stores.entries, e.2.isNullish = false) :
    extractOffers stores = Except.ok ((stores.entries.filter hasNumericPrice).map offerOf) := by
  unfold extractOffers
  rw [mapM_mkOffer_ok _ h]
  simp only [bind, Except.bind, pure, Except.pure, List.filter_map]
  congr 2
  apply List.filter_congr
  intro e _
  simp only [Function.comp, offerOf, hasNumericPrice, numberOrNull]
  cases e.2.get "PriceNumber" <;> rfl

theorem extractOffers_error (stores : JVal) (h : ∃ e ∈ stores.entries, e.2.isNullish = true) :
    extractOffers stores = Except.error JSError.typeError := by
  unfold extractOffers
  rw [mapM_mkOffer_error _ h]
  rfl

theorem extractOffers_price {stores : JVal} {l : List Offer}
    (h : extractOffers stores = Except.ok l) : ∀ o ∈ l, ∃ p, o.price = some p := by
  unfold extractOffers at h
  simp only [bind, Except.bind, pure, Except.pure] at h
  split at h
  · simp at h
  · injection h with h
    subst h
    intro o ho
    have := (List.mem_filter.mp ho).2
    exact Option.isSome_iff_exists.mp this

theorem extractOffers_nil {stores : JVal} {l : List Offer}
    (h : extractOffers stores = Except.ok l) (he : stores.entries = []) : l = [] := by
  unfold extractOffers at h
  rw [he] at h
  have h0 : ([] : List (String × JVal)).mapM mkOffer = Except.ok [] := rfl
  rw [h0] at h
  simp only [bind, Except.bind, pure, Except.pure, List.filter_nil] at h
  injection h with h
  exact h.symm

theorem offersAfterSort_eq (l : List Offer) : offersAfterSort l = jsSort priceCmp l := by
  cases l <;> simp [offersAfterSort, jsSort]

theorem bestOfferOf_eq (l : List Offer) : bestOfferOf l = (jsSort priceCmp l).head? := by
  cases l <;> simp [bestOfferOf, jsSort]

theorem regularPriceOf_none (offers : List Offer) :
    regularPriceOf offers none = Except.ok none := rfl

/-- C2: when `normalizeGame` returns, the offers of the record are the surviving offers
(those extracted with a numeric price) in some order; if one survives, `bestOffer` is a
surviving offer whose price is at most the price of every surviving offer; if none
survives, which is the case of an empty or absent store map, `bestOffer`,
`regularPrice` and `discountPercent` are all `null`. -/
theorem normalizeGame_bestOffer_min (env : Builtins) (raw : JVal) (g : Game)
    (h : normalizeGame env raw = Except.ok g) :
    ∃ extracted : List Offer,
      extractOffers (storesOf raw) = Except.ok extracted ∧
      g.offers.Perm extracted ∧
      (extracted ≠ [] → ∃ b p, g.bestOffer = some b ∧ b ∈ extracted ∧ b.price = some p ∧
        ∀ o ∈ extracted, ∃ q, o.price = some q ∧ p ≤ q) ∧
      (extracted = [] →
        g.bestOffer = none ∧ g.regularPrice = none ∧ g.discountPercent = none) ∧
      ((storesOf raw).entries = [] → extracted = []) := by
  obtain ⟨extracted, -, hex, hoff, hbest, hrp, hdp, -⟩ := normalizeGame_ok h
  rw [offersAfterSort_eq] at hoff
  rw [bestOfferOf_eq] at hbest
  have hperm : (jsSort priceCmp extracted).Perm extracted := jsSort_perm _ _
  refine ⟨extracted, hex, hoff ▸ hperm, ?_, ?_, extractOffers_nil hex⟩
  · intro hne
    have hsorted := jsSort_sorted priceCmp_key extracted
    cases hs : jsSort priceCmp extracted with
    | nil =>
      rw [hs] at hperm
      exact absurd hperm.symm.eq_nil hne
    | cons b t =>
      rw [hs] at hsorted hperm
      have hb : b ∈ extracted := hperm.subset (List.mem_cons_self _ _)
      obtain ⟨p, hp⟩ := extractOffers_price hex b hb
      refine ⟨b, p, by rw [hbest, hs]; rfl, hb, hp, ?_⟩
      intro o ho
      obtain ⟨q, hq⟩ := extractOffers_price hex o ho
      refine ⟨q, hq, ?_⟩
      rcases List.mem_cons.mp (hperm.symm.subset ho) with rfl | hot
      · rw [hp] at hq
        injection hq with hq
        subst hq
        cases p <;> simp [JNum.le_iff_ble, JNum.ble]
      · have := (List.pairwise_cons.mp hsorted).1 o hot
        simpa [hp, hq, priceKey] using this
  · intro hnil
    subst hnil
    have hb : g.bestOffer = none := by rw [hbest]; rfl
    rw [hb] at hrp hdp
    rw [regularPriceOf_none] at hrp
    injection hrp with hrp
    refine ⟨hb, hrp.symm, ?_⟩
    rw [hdp]
    rfl

theorem exists_of_isOk {ε α : Type} {x : Except ε α} (h : x.isOk = true) :
    ∃ a, x = Except.ok a := by
  cases x with
  | ok a => exact ⟨a, rfl⟩
  | error e => simp [Except.isOk, Except.toBool] at h

theorem normalizeGame_bestOffer_min_witness :
    ∃ g : Game, normalizeGame exampleBuiltins rawScenarioB = Except.ok g ∧
      ∃ extracted : List Offer,
        extractOffers (storesOf rawScenarioB) = Except.ok extracted ∧
        g.offers.Perm extracted ∧
        (extracted ≠ [] → ∃ b p, g.bestOffer = some b ∧ b ∈ extracted ∧ b.price = some p ∧
          ∀ o ∈ extracted, ∃ q, o.price = some q ∧ p ≤ q) ∧
        (extracted = [] →
          g.bestOffer = none ∧ g.regularPrice = none ∧ g.discountPercent = none) ∧
        ((storesOf rawScenarioB).entries = [] → extracted = []) :=
  (exists_of_isOk (x := normalizeGame exampleBuiltins rawScenarioB) (by decide!)).imp
    (fun g hg => ⟨hg, normalizeGame_bestOffer_min exampleBuiltins rawScenarioB g hg⟩)

/-- C4 (amended): when no entry of the store map is `null`, the extracted offers are
exactly the offers of the entries whose `PriceNumber` is of type number, finite or
not, one for each and in the order of the map; the offers of the record that
`normalizeGame` returns are these in some order. -/
theorem extractOffers_numeric_entries (env : Builtins) (raw : JVal)
    (h : ∀ e ∈ (storesOf raw).entries, e.2.isNullish = false) :
    extractOffers (storesOf raw)
        = Except.ok (((storesOf raw).entries.filter hasNumericPrice).map offerOf) ∧
      ∀ g : Game, normalizeGame env raw = Except.ok g →
        g.offers.Perm (((storesOf raw).entries.filter hasNumericPrice).map offerOf) := by
  have hex := extractOffers_ok (storesOf raw) h
  refine ⟨hex, ?_⟩
  intro g hg
  obtain ⟨extracted, -, hex', hoff, -⟩ := normalizeGame_ok hg
  rw [hex] at hex'
  injection hex' with hex'
  rw [hoff, offersAfterSort_eq, ← hex']
  exact jsSort_perm _ _

theorem extractOffers_numeric_entries_witness :
    (∀ e ∈ (storesOf rawMixedPrices).entries, e.2.isNullish = false) ∧
      (extractOffers (storesOf rawMixedPrices)
          = Except.ok (((storesOf rawMixedPrices).entries.filter hasNumericPrice).map offerOf) ∧
        ∀ g : Game, normalizeGame exampleBuiltins rawMixedPrices = Except.ok g →
          g.offers.Perm
            (((storesOf rawMixedPrices).entries.filter hasNumericPrice).map offerOf)) :=
  ⟨by decide!, extractOffers_numeric_entries exampleBuiltins rawMixedPrices (by decide!)⟩

/-- C4 as stated fails: the record whose only store has the price `Infinity` comes back
with an offer for that store, though no entry of its store map has a finite price. -/
theorem normalizeGame_keeps_infinite_price :
    (normalizeGame exampleBuiltins rawInfinitePrice).toOption.map (fun g => g.offers.map (fun o => o.storeKey))
        = some ["s"] ∧
      (normalizeGame exampleBuiltins rawInfinitePrice).toOption.map (fun g => g.offers.map (fun o => o.price))
        = some [some JNum.pinf] ∧
      ((storesOf rawInfinitePrice).entries.filter hasFinitePrice).map Prod.fst = [] := by
  refine ⟨?_, ?_, ?_⟩ <;> decide!

/-! ## Totality -/

theorem chosenRaw_text (l : List Offer) (h : ∀ o ∈ l, isTextOrFalsy o.priceRaw = true) :
    ∃ s, chosenRaw l = JVal.str s := by
  unfold chosenRaw
  cases hf : l.find? (fun o => o.priceRaw.truthy) with
  | none => exact ⟨"", rfl⟩
  | some o =>
    have hmem : o ∈ l := List.mem_of_find?_eq_some hf
    have htr : o.priceRaw.truthy = true := by
      have := List.find?_some hf
      simpa using this
    have ht := h o hmem
    simp only [JVal.orElse, htr, if_true]
    cases hp : o.priceRaw with
    | str s => exact ⟨s, rfl⟩
    | undefined => rw [hp] at htr; simp [JVal.truthy] at htr
    | null => rw [hp] at htr; simp [JVal.truthy] at htr
    | bool b => rw [hp] at htr ht; simp [isTextOrFalsy, htr] at ht
    | num x => rw [hp] at htr ht; simp [isTextOrFalsy, htr] at ht
    | arr xs => rw [hp] at ht; simp [isTextOrFalsy, JVal.truthy] at ht
    | obj kvs => rw [hp] at ht; simp [isTextOrFalsy, JVal.truthy] at ht

theorem regularPriceOf_returns (l : List Offer) (b : Option Offer)
    (h : ∀ o ∈ l, isTextOrFalsy o.priceRaw = true) :
    ∃ rp, regularPriceOf l b = Except.ok rp := by
  cases b with
  | none => exact ⟨none, rfl⟩
  | some b =>
    unfold regularPriceOf
    by_cases hl : l.length > 0
    · obtain ⟨s, hs⟩ := chosenRaw_text l h
      simp only [hl, if_true, inferRegularPrice, hs]
      exact ⟨_, rfl⟩
    · simp only [hl, if_false]
      exact ⟨none, rfl⟩

theorem offerOf_priceRaw_text (e : String × JVal)
    (h : isTextOrFalsy (e.2.get "PriceRaw") = true) :
    isTextOrFalsy (offerOf e).priceRaw = true := by
  simp only [offerOf, JVal.orElse]
  by_cases ht : (e.2.get "PriceRaw").truthy = true
  · simpa [ht] using h
  · rw [if_neg ht]
    rfl

theorem detectPlatform_returns (env : Builtins) (v : JVal) (h : isTextOrFalsy v = true) :
    ∃ pf, detectPlatform env v = Except.ok pf := by
  by_cases ht : v.truthy = true
  · cases v with
    | str s =>
      by_cases hs : s = ""
      · subst hs; exact ⟨"PC", detectPlatform_falsy env _ (by decide)⟩
      · exact ⟨_, detectPlatform_str env s hs⟩
    | undefined => simp [JVal.truthy] at ht
    | null => simp [JVal.truthy] at ht
    | bool b => simp [isTextOrFalsy, ht] at h
    | num x => simp [isTextOrFalsy, ht] at h
    | arr xs => simp [isTextOrFalsy, JVal.truthy] at h
    | obj kvs => simp [isTextOrFalsy, JVal.truthy] at h
  · exact ⟨"PC", by simp [detectPlatform, ht]⟩

/-- C7 (amended): `normalizeGame` returns a record, without raising, for every raw
record within the data model: the record and the entries of its store map are not
`null`, and a price text or a source URL that is present is a string.  The store map
may be empty or absent, any field of a store may be missing, and the price text may be
any string. -/
theorem normalizeGame_total (env : Builtins) (raw : JVal) (h : WellFormedRaw raw) :
    ∃ g : Game, normalizeGame env raw = Except.ok g := by
  obtain ⟨hn, hst, hurl⟩ := h
  have hex := extractOffers_ok (storesOf raw) (fun e he => (hst e he).1)
  have htext : ∀ o ∈ offersAfterSort
      (((storesOf raw).entries.filter hasNumericPrice).map offerOf),
      isTextOrFalsy o.priceRaw = true := by
    intro o ho
    rw [offersAfterSort_eq] at ho
    have ho' := (jsSort_perm _ _).subset ho
    obtain ⟨e, he, rfl⟩ := List.mem_map.mp ho'
    exact offerOf_priceRaw_text e (hst e (List.mem_filter.mp he).1).2
  obtain ⟨rp, hrp⟩ := regularPriceOf_returns _
    (bestOfferOf (((storesOf raw).entries.filter hasNumericPrice).map offerOf)) htext
  obtain ⟨pf, hpf⟩ := detectPlatform_returns env _ hurl
  exact normalizeGame_returns hn hex hrp hpf

theorem normalizeGame_total_witness :
    WellFormedRaw rawMalformedText ∧ ∃ g : Game, normalizeGame exampleBuiltins rawMalformedText = Except.ok g :=
  ⟨⟨by decide!, by decide!, by decide!⟩,
    normalizeGame_total exampleBuiltins rawMalformedText ⟨by decide!, by decide!, by decide!⟩⟩

/-- C7 as stated fails: a store whose price text is a number makes `normalizeGame`
raise, and so do a store entry that is `null` and a source URL that is a number. -/
theorem normalizeGame_raises :
    (normalizeGame exampleBuiltins rawNumericPriceText).isOk = false ∧
      (normalizeGame exampleBuiltins rawNullStore).isOk = false ∧
      (normalizeGame exampleBuiltins rawNumericUrl).isOk = false := by
  refine ⟨?_, ?_, ?_⟩ <;> decide!

/-! ## Regular price and discount -/

theorem regularPriceOf_some {l : List Offer} {b : Offer} {r : JSNum}
    (h : regularPriceOf l (some b) = Except.ok (some r)) :
    JSNum.gt r (priceNum b.price) = true ∧
      ∃ s, chosenRaw l = JVal.str s ∧ r ∈ sortedNumbers s := by
  unfold regularPriceOf at h
  by_cases hl : l.length > 0
  · simp only [hl, if_true, inferRegularPrice] at h
    split at h
    · rename_i s hs
      injection h with h
      have h1 := List.find?_some h
      have h2 := List.mem_of_find?_eq_some h
      exact ⟨by simpa using h1, s, hs, h2⟩
    · simp at h
  · simp [hl] at h

/-! ## Rounding to a double -/

theorem roundHalfEven_err (m : ℚ) : |(roundHalfEven m : ℚ) - m| ≤ 1 / 2 := by
  have h1 : (⌊m⌋ : ℚ) ≤ m := Int.floor_le m
  have h2 : m < (⌊m⌋ : ℚ) + 1 := Int.lt_floor_add_one m
  unfold roundHalfEven
  simp only
  split_ifs with ha hb hc
  · rw [abs_le]; constructor <;> linarith
  · rw [abs_le]; push_cast; constructor <;> linarith
  · have he : m - ⌊m⌋ = 1 / 2 := le_antisymm (not_lt.mp hb) (not_lt.mp ha)
    rw [abs_le]; constructor <;> linarith
  · have he : m - ⌊m⌋ = 1 / 2 := le_antisymm (not_lt.mp hb) (not_lt.mp ha)
    rw [abs_le]; push_cast; constructor <;> linarith

theorem ulp_pos (a : ℚ) : 0 < ulp a := by
  unfold ulp
  exact zpow_pos (by norm_num) _

theorem ulp_le (a : ℚ) (E : ℤ) (ha : 0 < a) (h : a < (2 : ℚ) ^ (E + 1)) (hE : -1022 ≤ E) :
    ulp a ≤ (2 : ℚ) ^ (E - 52) := by
  have hlog : Int.log 2 a < E + 1 := by
    have := (Int.lt_zpow_iff_log_lt (b := 2) (by norm_num) ha (x := E + 1)).mp
      (by simpa using h)
    exact this
  unfold ulp
  apply zpow_le_zpow_right₀ (by norm_num)
  have : max (Int.log 2 a) (-1022) ≤ E := max_le (by omega) hE
  omega

theorem roundToDouble_err (q : ℚ) (E : ℤ) (hE : -1022 ≤ E) (hE' : E ≤ 1022)
    (h : |q| < (2 : ℚ) ^ (E + 1)) :
    ∃ v : ℚ, roundToDouble q = JNum.fin v ∧ |v - q| ≤ (2 : ℚ) ^ (E - 53) := by
  by_cases hq : q = 0
  · subst hq
    refine ⟨0, by simp [roundToDouble], ?_⟩
    simp only [sub_self, abs_zero]
    exact le_of_lt (zpow_pos (by norm_num) _)
  · have ha : 0 < |q| := abs_pos.mpr hq
    unfold roundToDouble
    simp only [hq, if_false]
    generalize hA : |q| = a at h ha ⊢
    have hu := ulp_pos a
    have hule := ulp_le a E ha h hE
    have hk := roundHalfEven_err (a / ulp a)
    generalize (roundHalfEven (a / ulp a) : ℚ) = k at hk ⊢
    generalize ulp a = u at hu hule hk ⊢
    have hw : |k * u - a| ≤ u / 2 := by
      have e1 : k * u - a = (k - a / u) * u := by
        field_simp
      rw [e1, abs_mul, abs_of_pos hu]
      calc |k - a / u| * u ≤ 1 / 2 * u := mul_le_mul_of_nonneg_right hk (le_of_lt hu)
        _ = u / 2 := by ring
    have hhalf : u / 2 ≤ (2 : ℚ) ^ (E - 53) := by
      have e2 : (2 : ℚ) ^ (E - 53) = (2 : ℚ) ^ (E - 52) / 2 := by
        rw [show E - 53 = (E - 52) - 1 by ring, zpow_sub_one₀ (by norm_num)]
        ring
      rw [e2]
      linarith
    have hw' := le_trans hw hhalf
    have hsmall : (2 : ℚ) ^ (E - 53) < (2 : ℚ) ^ (E + 1) :=
      zpow_lt_zpow_right₀ (by norm_num) (by omega)
    have hbig : (2 : ℚ) ^ (E + 1) + (2 : ℚ) ^ (E + 1) ≤ (2 : ℚ) ^ (1024 : ℤ) := by
      have e3 : (2 : ℚ) ^ (E + 1 + 1) = (2 : ℚ) ^ (E + 1) * 2 :=
        zpow_add_one₀ (by norm_num) (E + 1)
      have e4 : (2 : ℚ) ^ (E + 1 + 1) ≤ (2 : ℚ) ^ (1024 : ℤ) :=
        zpow_le_zpow_right₀ (by norm_num) (by omega)
      linarith
    have hno : ¬ (2 : ℚ) ^ (1024 : ℤ) ≤ k * u := by
      rw [abs_le] at hw'
      intro hc
      linarith [hw'.2]
    simp only [hno, if_false]
    by_cases hpos : 0 < q
    · refine ⟨k * u, by simp [hpos], ?_⟩
      have hqa : q = a := by rw [← hA, abs_of_pos hpos]
      rw [hqa]
      exact hw'
    · have hneg : q < 0 := lt_of_le_of_ne (not_lt.mp hpos) hq
      refine ⟨-(k * u), by simp [hpos], ?_⟩
      have hqa : q = -a := by rw [← hA, abs_of_neg hneg, neg_neg]
      rw [hqa, abs_le]
      rw [abs_le] at hw'
      constructor <;> linarith [hw'.1, hw'.2]

theorem discountOf_bound (b : Offer) (p q : ℚ) (hp : b.price = some (JNum.fin p))
    (h0 : 0 ≤ p) (hpq : p < q) :
    ∃ v : ℚ, discountOf b (JSNum.ofRat q) = JSNum.ofRat ((⌊v + 1 / 2⌋ : ℤ) : ℚ) ∧
      |v - 100 * (1 - p / q)| ≤ 1 / 2 ^ 44 := by
  have hq : 0 < q := lt_of_le_of_lt h0 hpq
  have hq0 : q ≠ 0 := ne_of_gt hq
  have hx0 : 0 ≤ p / q := div_nonneg h0 (le_of_lt hq)
  have hx1 : p / q < 1 := (div_lt_one hq).mpr hpq
  obtain ⟨x, hx, ex⟩ := roundToDouble_err (p / q) (-1) (by norm_num) (by norm_num)
    (by rw [abs_of_nonneg hx0]; norm_num; exact hx1)
  have ex' : |x - p / q| ≤ 1 / 2 ^ 54 := by
    have e : (2 : ℚ) ^ ((-1 : ℤ) - 53) = 1 / 2 ^ 54 := by norm_num
    rw [e] at ex
    exact ex
  rw [abs_le] at ex'
  obtain ⟨y, hy, ey⟩ := roundToDouble_err (1 - x) 0 (by norm_num) (by norm_num)
    (by
      rw [abs_lt]
      norm_num
      constructor <;> linarith [ex'.1, ex'.2])
  have ey' : |y - (1 - x)| ≤ 1 / 2 ^ 53 := by
    have e : (2 : ℚ) ^ ((0 : ℤ) - 53) = 1 / 2 ^ 53 := by norm_num
    rw [e] at ey
    exact ey
  rw [abs_le] at ey'
  obtain ⟨z, hz, ez⟩ := roundToDouble_err (y * 100) 7 (by norm_num) (by norm_num)
    (by
      rw [abs_lt]
      norm_num
      constructor <;> linarith [ex'.1, ex'.2, ey'.1, ey'.2])
  have ez' : |z - y * 100| ≤ 1 / 2 ^ 46 := by
    have e : (2 : ℚ) ^ ((7 : ℤ) - 53) = 1 / 2 ^ 46 := by norm_num
    rw [e] at ez
    exact ez
  rw [abs_le] at ez'
  refine ⟨z, ?_, ?_⟩
  · simp [discountOf, priceNum, hp, JSNum.ofRat, JSNum.div, hq0, JSNum.toDouble, hx,
      JSNum.sub, hy, JSNum.mul, hz, JSNum.round]
  · rw [abs_le]
    norm_num at ex' ey' ez' ⊢
    constructor <;> linarith [ex'.1, ex'.2, ey'.1, ey'.2, ez'.1, ez'.2]

theorem floor_near (v x : ℚ) (h : |v - x| ≤ 1) :
    |⌊v + 1 / 2⌋ - ⌊x + 1 / 2⌋| ≤ 1 := by
  rw [abs_le] at h
  have h1 : ⌊v + 1 / 2⌋ ≤ ⌊x + 1 / 2⌋ + 1 := by
    rw [← Int.floor_add_one]
    exact Int.floor_mono (by linarith [h.2])
  have h2 : ⌊x + 1 / 2⌋ ≤ ⌊v + 1 / 2⌋ + 1 := by
    rw [← Int.floor_add_one]
    exact Int.floor_mono (by linarith [h.1])
  rw [abs_le]
  constructor <;> linarith

/-- C3 (amended): when `normalizeGame` returns, `discountPercent` is not `null` exactly
when `bestOffer` is not `null` and `regularPrice` is neither `null` nor zero, which for a
best price that is not negative is exactly when both are not `null`.  It is then
`Math.round((1 - bestOffer.price / regularPrice) * 100)` computed in doubles: for a
finite price `p ≥ 0` and a regular price `q` it is the nearest integer, a half going up,
of a number within `2 ^ (-44)` of `100 × (1 − p / q)`, so it is at most one away from
the nearest integer of `100 × (1 − p / q)` itself and differs from it only next to a
half.  A regular price is never `NaN`. -/
theorem normalizeGame_discountPercent (env : Builtins) (raw : JVal) (g : Game)
    (h : normalizeGame env raw = Except.ok g) :
    (g.discountPercent ≠ none ↔
        ∃ b r, g.bestOffer = some b ∧ g.regularPrice = some r ∧ r ≠ JSNum.ofRat 0) ∧
      (∀ b p, g.bestOffer = some b → b.price = some p → JNum.fin 0 ≤ p →
        (g.discountPercent ≠ none ↔ g.regularPrice ≠ none)) ∧
      (∀ b r, g.bestOffer = some b → g.regularPrice = some r → r ≠ JSNum.ofRat 0 →
        g.discountPercent = some (discountOf b r)) ∧
      (∀ b p q, g.bestOffer = some b → b.price = some (JNum.fin p) →
        g.regularPrice = some (JSNum.ofRat q) → 0 ≤ p →
        ∃ v : ℚ, g.discountPercent = some (JSNum.ofRat ((⌊v + 1 / 2⌋ : ℤ) : ℚ)) ∧
          |v - 100 * (1 - p / q)| ≤ 1 / 2 ^ 44 ∧
          |⌊v + 1 / 2⌋ - ⌊100 * (1 - p / q) + 1 / 2⌋| ≤ 1) ∧
      g.regularPrice ≠ some JSNum.nan ∧
      (∀ b p, g.bestOffer = some b → b.price = some p → JNum.fin 0 ≤ p →
        g.regularPrice ≠ some (JSNum.ofRat 0)) := by
  obtain ⟨extracted, -, -, -, -, hrp, hdp, -⟩ := normalizeGame_ok h
  have hnan : g.regularPrice ≠ some JSNum.nan := by
    intro hn
    rw [hn] at hrp
    cases hb : g.bestOffer with
    | none => rw [hb] at hrp; simp [regularPriceOf] at hrp
    | some b =>
      rw [hb] at hrp
      have := (regularPriceOf_some hrp).1
      simp [JSNum.gt] at this
  have htruthy : ∀ r, g.regularPrice = some r → (r.truthy = true ↔ r ≠ JSNum.ofRat 0) := by
    intro r hr
    cases r with
    | nan => exact absurd hr hnan
    | val x => cases x <;> simp [JSNum.truthy, JSNum.ofRat]
  have hval : ∀ b r, g.bestOffer = some b → g.regularPrice = some r → r ≠ JSNum.ofRat 0 →
      g.discountPercent = some (discountOf b r) := by
    intro b r hb hr hr0
    rw [hdp, hb, hr]
    simp [discountPercentOf, (htruthy r hr).mpr hr0]
  have hzero : ∀ b p, g.bestOffer = some b → b.price = some p → JNum.fin 0 ≤ p →
      g.regularPrice ≠ some (JSNum.ofRat 0) := by
    intro b p hb hp h0 hr
    rw [hb, hr] at hrp
    have hgt := (regularPriceOf_some hrp).1
    rw [JNum.le_iff_ble] at h0
    simp [JSNum.gt, JSNum.ofRat, priceNum, hp, h0] at hgt
  have hiff : g.discountPercent ≠ none ↔
      ∃ b r, g.bestOffer = some b ∧ g.regularPrice = some r ∧ r ≠ JSNum.ofRat 0 := by
    constructor
    · intro hne
      rw [hdp] at hne
      cases hb : g.bestOffer with
      | none => rw [hb] at hne; simp [discountPercentOf] at hne
      | some b =>
        cases hr : g.regularPrice with
        | none => rw [hb, hr] at hne; simp [discountPercentOf] at hne
        | some r =>
          refine ⟨b, r, rfl, rfl, ?_⟩
          rw [hb, hr] at hne
          by_cases ht : r.truthy = true
          · exact (htruthy r hr).mp ht
          · simp [discountPercentOf, ht] at hne
    · rintro ⟨b, r, hb, hr, hr0⟩
      rw [hval b r hb hr hr0]
      simp
  refine ⟨hiff, ?_, hval, ?_, hnan, hzero⟩
  · intro b p hb hp h0
    rw [hiff]
    constructor
    · rintro ⟨b', r, -, hr, -⟩
      rw [hr]
      simp
    · intro hne
      cases hr : g.regularPrice with
      | none => exact absurd hr hne
      | some r =>
        refine ⟨b, r, hb, rfl, ?_⟩
        intro hr0
        rw [hr0] at hr
        exact hzero b p hb hp h0 hr
  · intro b p q hb hp hr h0
    have hpq : p < q := by
      rw [hb, hr] at hrp
      have hgt := (regularPriceOf_some hrp).1
      simpa [JSNum.gt, JSNum.ofRat, priceNum, hp, JNum.ble] using hgt
    have hq0 : JSNum.ofRat q ≠ JSNum.ofRat 0 := by
      have : q ≠ 0 := ne_of_gt (lt_of_le_of_lt h0 hpq)
      simpa [JSNum.ofRat] using this
    obtain ⟨v, hv, hbound⟩ := discountOf_bound b p q hp h0 hpq
    refine ⟨v, ?_, hbound, floor_near v _ (le_trans hbound (by norm_num))⟩
    rw [hval b _ hb hr hq0, hv]

theorem normalizeGame_discountPercent_witness :
    ∃ g : Game, normalizeGame exampleBuiltins rawScenarioA = Except.ok g ∧
      g.discountPercent = some (JSNum.ofRat 10) ∧
      ((g.discountPercent ≠ none ↔
          ∃ b r, g.bestOffer = some b ∧ g.regularPrice = some r ∧ r ≠ JSNum.ofRat 0) ∧
        (∀ b p, g.bestOffer = some b → b.price = some p → JNum.fin 0 ≤ p →
          (g.discountPercent ≠ none ↔ g.regularPrice ≠ none)) ∧
        (∀ b r, g.bestOffer = some b → g.regularPrice = some r → r ≠ JSNum.ofRat 0 →
          g.discountPercent = some (discountOf b r)) ∧
        (∀ b p q, g.bestOffer = some b → b.price = some (JNum.fin p) →
          g.regularPrice = some (JSNum.ofRat q) → 0 ≤ p →
          ∃ v : ℚ, g.discountPercent = some (JSNum.ofRat ((⌊v + 1 / 2⌋ : ℤ) : ℚ)) ∧
            |v - 100 * (1 - p / q)| ≤ 1 / 2 ^ 44 ∧
            |⌊v + 1 / 2⌋ - ⌊100 * (1 - p / q) + 1 / 2⌋| ≤ 1) ∧
        g.regularPrice ≠ some JSNum.nan ∧
        (∀ b p, g.bestOffer = some b → b.price = some p → JNum.fin 0 ≤ p →
          g.regularPrice ≠ some (JSNum.ofRat 0))) := by
  have hd : (normalizeGame exampleBuiltins rawScenarioA).toOption.map
      (fun g => g.discountPercent) = some (some (JSNum.ofRat 10)) := by decide!
  obtain ⟨g, hg⟩ := exists_of_isOk (x := normalizeGame exampleBuiltins rawScenarioA)
    (by decide!)
  refine ⟨g, hg, ?_, normalizeGame_discountPercent exampleBuiltins rawScenarioA g hg⟩
  rw [hg] at hd
  simpa [Except.toOption] using hd

/-- C3 as stated fails: for the price 13.50 and the price text "20.00" the exact value
`100 × (1 − 13.5 / 20)` is 32.5, which rounds half-up to 33, but the doubles give
32.49999999999999 and `discountPercent` is 32.  And for the price -1 and the price text
"0" the best offer and the regular price (zero) are both present, yet `discountPercent`
is `null`. -/
theorem normalizeGame_discount_rounds_the_double :
    (normalizeGame exampleBuiltins rawHalfDiscount).toOption.map
        (fun g => (g.bestOffer.map (fun b => b.price), g.regularPrice, g.discountPercent))
      = some (some (some (JNum.fin 13.5)), some (JSNum.ofRat 20), some (JSNum.ofRat 32)) ∧
      ⌊(100 : ℚ) * (1 - 13.5 / 20) + 1 / 2⌋ = 33 ∧
      (normalizeGame exampleBuiltins rawZeroRegular).toOption.map
          (fun g => (g.bestOffer.isSome, g.regularPrice, g.discountPercent))
        = some (true, some (JSNum.ofRat 0), none) := by
  refine ⟨?_, ?_, ?_⟩ <;> decide!

/-! ## The price text that is read -/

theorem keeps_priceCmp_iff (a b : Offer) :
    keeps priceCmp a b ↔ JNum.ble (priceKey a.price) (priceKey b.price) = true :=
  keeps_iff priceCmp_key a b

theorem find?_orderedInsert (p : Offer → Bool) (a : Offer) (S : List Offer)
    (hS : S.Pairwise (keeps priceCmp)) :
    (S.orderedInsert (keeps priceCmp) a).find? p =
      if p a then
        (match S.find? p with
          | none => some a
          | some b => if keeps priceCmp a b then some a else some b)
      else S.find? p := by
  induction S with
  | nil => by_cases hp : p a <;> simp [hp]
  | cons c S ih =>
    obtain ⟨hc, hS'⟩ := List.pairwise_cons.mp hS
    by_cases hk : keeps priceCmp a c
    · have hins : (c :: S).orderedInsert (keeps priceCmp) a = a :: c :: S := by
        simp [List.orderedInsert, hk]
      rw [hins]
      by_cases hp : p a = true
      · rw [List.find?_cons_of_pos _ hp, if_pos hp]
        cases hf : (c :: S).find? p with
        | none => rfl
        | some b =>
          have hb : b ∈ c :: S := List.mem_of_find?_eq_some hf
          have hab : keeps priceCmp a b := by
            rcases List.mem_cons.mp hb with rfl | hb
            · exact hk
            · have hcb := hc b hb
              rw [keeps_priceCmp_iff] at *
              exact JNum.le_trans' hk hcb
          simp [hab]
      · rw [List.find?_cons_of_neg _ hp, if_neg hp]
    · have hins : (c :: S).orderedInsert (keeps priceCmp) a
          = c :: S.orderedInsert (keeps priceCmp) a := by
        simp [List.orderedInsert, hk]
      rw [hins]
      by_cases hpc : p c = true
      · rw [List.find?_cons_of_pos _ hpc, List.find?_cons_of_pos _ hpc]
        by_cases hp : p a = true
        · simp [hp, hk]
        · simp [hp]
      · rw [List.find?_cons_of_neg _ hpc, List.find?_cons_of_neg _ hpc]
        exact ih hS'

theorem jsSort_priceCmp_pairwise (l : List Offer) :
    (jsSort priceCmp l).Pairwise (keeps priceCmp) := by
  have := jsSort_sorted priceCmp_key l
  exact List.Pairwise.imp (fun {a b} hab => (keeps_iff priceCmp_key a b).mpr hab) this

theorem find?_jsSort_priceCmp (l : List Offer) :
    (jsSort priceCmp l).find? (fun o => o.priceRaw.truthy) = lowestPricedWithText l := by
  induction l with
  | nil => rfl
  | cons o rest ih =>
    have hcons : jsSort priceCmp (o :: rest)
        = (jsSort priceCmp rest).orderedInsert (keeps priceCmp) o := rfl
    rw [hcons, find?_orderedInsert _ _ _ (jsSort_priceCmp_pairwise rest), ih]
    conv_rhs => rw [lowestPricedWithText]
    cases hl : lowestPricedWithText rest with
    | none => by_cases hp : o.priceRaw.truthy = true <;> simp [hp]
    | some b =>
      by_cases hp : o.priceRaw.truthy = true
      · by_cases hk : keeps priceCmp o b
        · simp [hp, hk, (keeps_priceCmp_iff o b).mp hk]
        · have hk' : JNum.ble (priceKey o.price) (priceKey b.price) = false := by
            rw [keeps_priceCmp_iff] at hk
            simpa using hk
          simp [hp, hk, hk']
      · simp [hp]

theorem lowestPricedWithText_none_iff (l : List Offer) :
    lowestPricedWithText l = none ↔ ∀ o ∈ l, o.priceRaw.truthy = false := by
  induction l with
  | nil => simp [lowestPricedWithText]
  | cons o rest ih =>
    rw [lowestPricedWithText]
    cases hl : lowestPricedWithText rest with
    | none =>
      have hr := ih.mp hl
      by_cases hp : o.priceRaw.truthy = true
      · simp [hp]
      · have hp' : o.priceRaw.truthy = false := by simpa using hp
        simp only [hp', Bool.false_eq_true, if_false, true_iff]
        intro x hx
        rcases List.mem_cons.mp hx with rfl | hx
        · exact hp'
        · exact hr x hx
    | some b =>
      have hne : ¬ ∀ x ∈ rest, x.priceRaw.truthy = false := by
        intro hall
        rw [ih.mpr hall] at hl
        exact Option.noConfusion hl
      have hne' : ¬ ∀ x ∈ o :: rest, x.priceRaw.truthy = false :=
        fun hall => hne (fun x hx => hall x (List.mem_cons_of_mem _ hx))
      simp only [hne', iff_false]
      split <;> simp

theorem lowestPricedWithText_some (l : List Offer) (o : Offer)
    (h : lowestPricedWithText l = some o) :
    ∃ l₁ l₂, l = l₁ ++ o :: l₂ ∧ o.priceRaw.truthy = true ∧
      (∀ x ∈ l₁, x.priceRaw.truthy = true → ¬ priceKey x.price ≤ priceKey o.price) ∧
      (∀ x ∈ l₂, x.priceRaw.truthy = true → priceKey o.price ≤ priceKey x.price) := by
  induction l generalizing o with
  | nil => simp [lowestPricedWithText] at h
  | cons a rest ih =>
    rw [lowestPricedWithText] at h
    cases hl : lowestPricedWithText rest with
    | none =>
      rw [hl] at h
      have hr := (lowestPricedWithText_none_iff rest).mp hl
      by_cases hp : a.priceRaw.truthy = true
      · simp only [hp, if_true] at h
        injection h with h
        subst h
        refine ⟨[], rest, rfl, hp, by simp, ?_⟩
        intro x hx hxt
        rw [hr x hx] at hxt
        exact Bool.noConfusion hxt
      · simp [hp] at h
    | some b =>
      rw [hl] at h
      obtain ⟨l₁, l₂, hrest, hbt, h1, h2⟩ := ih b hl
      by_cases hc : (a.priceRaw.truthy && JNum.ble (priceKey a.price) (priceKey b.price)) = true
      · simp only [hc, if_true] at h
        injection h with h
        subst h
        simp only [Bool.and_eq_true] at hc
        refine ⟨[], rest, rfl, hc.1, by simp, ?_⟩
        intro x hx hxt
        have hab : priceKey a.price ≤ priceKey b.price := hc.2
        rw [hrest] at hx
        rcases List.mem_append.mp hx with hx | hx
        · rcases JNum.le_total' (priceKey a.price) (priceKey x.price) with hle | hle
          · exact hle
          · exact absurd (JNum.le_trans' hle hab) (h1 x hx hxt)
        · rcases List.mem_cons.mp hx with rfl | hx
          · exact hab
          · exact JNum.le_trans' hab (h2 x hx hxt)
      · simp only [hc, if_false] at h
        injection h with h
        subst h
        refine ⟨a :: l₁, l₂, by rw [hrest]; rfl, hbt, ?_, h2⟩
        intro x hx hxt
        rcases List.mem_cons.mp hx with rfl | hx
        · intro hle
          apply hc
          simp only [Bool.and_eq_true]
          exact ⟨hxt, hle⟩
        · exact h1 x hx hxt

theorem chosenRaw_eq (l : List Offer) :
    chosenRaw l = (match l.find? (fun o => o.priceRaw.truthy) with
      | some o => o.priceRaw
      | none => JVal.str "") := by
  unfold chosenRaw
  cases hf : l.find? (fun o => o.priceRaw.truthy) with
  | none => rfl
  | some o =>
    have htr : o.priceRaw.truthy = true := by
      have := List.find?_some hf
      simpa using this
    simp [JVal.orElse, htr]

/-- C10: when `normalizeGame` returns, the offer whose price text it reads is the first
offer with a non-empty price text in the array left by the in-place sort, and this is
the lowest-priced of the extracted offers that have a price text, the earliest in the
order of the store map among those of that price; the text read is the price text of
that offer, and the empty text, which gives `regularPrice` `null`, when no extracted
offer has a price text. -/
theorem normalizeGame_chosen_text (env : Builtins) (raw : JVal) (g : Game)
    (h : normalizeGame env raw = Except.ok g) :
    ∃ extracted : List Offer,
      extractOffers (storesOf raw) = Except.ok extracted ∧
      g.offers.find? (fun o => o.priceRaw.truthy) = lowestPricedWithText extracted ∧
      chosenRaw g.offers = (match lowestPricedWithText extracted with
        | some o => o.priceRaw
        | none => JVal.str "") ∧
      (∀ b, g.bestOffer = some b → inferRegularPrice g.offers b = Except.ok g.regularPrice) ∧
      (lowestPricedWithText extracted = none → g.regularPrice = none) ∧
      (lowestPricedWithText extracted = none ↔
        ∀ o ∈ extracted, o.priceRaw.truthy = false) ∧
      (∀ o, lowestPricedWithText extracted = some o →
        ∃ l₁ l₂, extracted = l₁ ++ o :: l₂ ∧ o.priceRaw.truthy = true ∧
          (∀ x ∈ l₁, x.priceRaw.truthy = true → ¬ priceKey x.price ≤ priceKey o.price) ∧
          (∀ x ∈ l₂, x.priceRaw.truthy = true → priceKey o.price ≤ priceKey x.price)) := by
  obtain ⟨extracted, -, hex, hoff, hbest, hrp, -, -⟩ := normalizeGame_ok h
  rw [offersAfterSort_eq] at hoff
  rw [bestOfferOf_eq, ← hoff] at hbest
  have hfind : g.offers.find? (fun o => o.priceRaw.truthy) = lowestPricedWithText extracted := by
    rw [hoff]
    exact find?_jsSort_priceCmp extracted
  have hchosen : chosenRaw g.offers = (match lowestPricedWithText extracted with
      | some o => o.priceRaw
      | none => JVal.str "") := by
    rw [chosenRaw_eq, hfind]
  have hinfer : ∀ b, g.bestOffer = some b →
      inferRegularPrice g.offers b = Except.ok g.regularPrice := by
    intro b hb
    rw [hb] at hrp hbest
    have hlen : g.offers.length > 0 := by
      cases hg : g.offers with
      | nil => rw [hg] at hbest; simp at hbest
      | cons a t => simp
    simpa [regularPriceOf, hlen] using hrp
  refine ⟨extracted, hex, hfind, hchosen, hinfer, ?_, lowestPricedWithText_none_iff extracted,
    lowestPricedWithText_some extracted⟩
  intro hnone
  cases hb : g.bestOffer with
  | none =>
    rw [hb, regularPriceOf_none] at hrp
    injection hrp with hrp
    exact hrp.symm
  | some b =>
    have hi := hinfer b hb
    rw [hnone] at hchosen
    simp only [inferRegularPrice, hchosen] at hi
    have h0 : sortedNumbers "" = [] := by decide
    rw [h0] at hi
    injection hi with hi
    exact hi.symm

theorem normalizeGame_chosen_text_witness :
    ∃ g : Game, normalizeGame exampleBuiltins rawTextOrder = Except.ok g ∧
      (g.regularPrice = some (JSNum.ofRat 15) ∧
        textOf (chosenRaw g.offers) = some "$15.00" ∧
        (extractOffers (storesOf rawTextOrder)).toOption.map (fun l => textOf (chosenRaw l))
          = some (some "$20.00")) ∧
      ∃ extracted : List Offer,
        extractOffers (storesOf rawTextOrder) = Except.ok extracted ∧
        g.offers.find? (fun o => o.priceRaw.truthy) = lowestPricedWithText extracted ∧
        chosenRaw g.offers = (match lowestPricedWithText extracted with
          | some o => o.priceRaw
          | none => JVal.str "") ∧
        (∀ b, g.bestOffer = some b →
          inferRegularPrice g.offers b = Except.ok g.regularPrice) ∧
        (lowestPricedWithText extracted = none → g.regularPrice = none) ∧
        (lowestPricedWithText extracted = none ↔
          ∀ o ∈ extracted, o.priceRaw.truthy = false) ∧
        (∀ o, lowestPricedWithText extracted = some o →
          ∃ l₁ l₂, extracted = l₁ ++ o :: l₂ ∧ o.priceRaw.truthy = true ∧
            (∀ x ∈ l₁, x.priceRaw.truthy = true → ¬ priceKey x.price ≤ priceKey o.price) ∧
            (∀ x ∈ l₂, x.priceRaw.truthy = true → priceKey o.price ≤ priceKey x.price)) := by
  have hd : (normalizeGame exampleBuiltins rawTextOrder).toOption.map
      (fun g => (g.regularPrice, textOf (chosenRaw g.offers)))
      = some (some (JSNum.ofRat 15), some "$15.00") := by decide!
  obtain ⟨g, hg⟩ := exists_of_isOk (x := normalizeGame exampleBuiltins rawTextOrder) (by decide!)
  rw [hg] at hd
  simp only [Except.toOption, Option.map_some', Option.some.injEq, Prod.mk.injEq] at hd
  exact ⟨g, hg, ⟨hd.1, hd.2, by decide!⟩, normalizeGame_chosen_text exampleBuiltins rawTextOrder g hg⟩

/-! ## The collection view -/

/-- C8: `sortGames` with the key `priceAsc` returns the records in an order where the
effective price never decreases, the effective price of a record being the price of its
best offer, and `Infinity` without best offer: of two records with a price the earlier
has the lower or the same price, every record is at most (in effective price) every
later one and in particular the next one, and after a record without best offer come
only records without a price or with the price `Infinity`, so the records without a price
come last. -/
theorem sortGames_priceAsc_sorted (env : Builtins) (l : List Game) :
    ∃ sorted : List Game,
      sortGames env "priceAsc" l = Except.ok sorted ∧
      sorted.Perm l ∧
      sorted.Pairwise (fun a b => effectivePrice a ≤ effectivePrice b) ∧
      sorted.Chain' (fun a b => effectivePrice a ≤ effectivePrice b) ∧
      (∀ g : Game, g.bestOffer = none → effectivePrice g = JNum.pinf) ∧
      (∀ (g : Game) (o : Offer) (p : JNum), g.bestOffer = some o → o.price = some p →
        effectivePrice g = p) ∧
      sorted.Pairwise (fun a b => ∀ oa ob pa pb, a.bestOffer = some oa → oa.price = some pa →
        b.bestOffer = some ob → ob.price = some pb → pa ≤ pb) ∧
      sorted.Pairwise (fun a b => a.bestOffer = none →
        ∀ ob pb, b.bestOffer = some ob → ob.price = some pb → pb = JNum.pinf) := by
  have hk : KeyCmp
      (fun a b : Game =>
        JSNum.sub (JSNum.val (effectivePrice a)) (JSNum.val (effectivePrice b)))
      effectivePrice := fun _ _ => rfl
  have hs := jsSort_sorted hk l
  have hnone : ∀ g : Game, g.bestOffer = none → effectivePrice g = JNum.pinf := by
    intro g hg
    simp [effectivePrice, priceOr, hg]
  have hsome : ∀ (g : Game) (o : Offer) (p : JNum), g.bestOffer = some o →
      o.price = some p → effectivePrice g = p := by
    intro g o p hg ho
    simp [effectivePrice, priceOr, hg, ho]
  refine ⟨_, rfl, jsSort_perm _ l, hs, List.Pairwise.chain' hs, hnone, hsome, ?_, ?_⟩
  · refine List.Pairwise.imp ?_ hs
    intro a b hab oa ob pa pb hoa hpa hob hpb
    rw [hsome a oa pa hoa hpa, hsome b ob pb hob hpb] at hab
    exact hab
  · refine List.Pairwise.imp ?_ hs
    intro a b hab ha ob pb hob hpb
    rw [hnone a ha, hsome b ob pb hob hpb] at hab
    cases pb with
    | pinf => rfl
    | ninf => exact absurd hab (by decide)
    | fin q => simp [JNum.le_iff_ble, JNum.ble] at hab

theorem sortGames_priceAsc_sorted_witness :
    (sortGames exampleBuiltins "priceAsc" gamesPriced).toOption.map titlesOf
        = some [some "Five", some "Twelve", some "No offer", some "Unpriced"] ∧
      ∃ sorted : List Game,
        sortGames exampleBuiltins "priceAsc" gamesPriced = Except.ok sorted ∧
        sorted.Perm gamesPriced ∧
        sorted.Pairwise (fun a b => effectivePrice a ≤ effectivePrice b) ∧
        sorted.Chain' (fun a b => effectivePrice a ≤ effectivePrice b) ∧
        (∀ g : Game, g.bestOffer = none → effectivePrice g = JNum.pinf) ∧
        (∀ (g : Game) (o : Offer) (p : JNum), g.bestOffer = some o → o.price = some p →
          effectivePrice g = p) ∧
        sorted.Pairwise (fun a b => ∀ oa ob pa pb, a.bestOffer = some oa →
          oa.price = some pa → b.bestOffer = some ob → ob.price = some pb → pa ≤ pb) ∧
        sorted.Pairwise (fun a b => a.bestOffer = none →
          ∀ ob pb, b.bestOffer = some ob → ob.price = some pb → pb = JNum.pinf) :=
  ⟨by decide!, sortGames_priceAsc_sorted exampleBuiltins gamesPriced⟩

theorem includes_empty (s : String) : includes s "" = true := by
  unfold includes
  rw [includesList_iff]
  exact List.nil_infix

theorem titleMatches_of_string {env : Builtins} {term : String} {g : Game}
    (h : hasStringTitle g = true) :
    titleMatches env term g = Except.ok (titleIncludes env term g) := by
  unfold titleMatches titleIncludes
  unfold hasStringTitle at h
  cases ht : g.title <;> rw [ht] at h <;> simp at h ⊢

theorem filterTitles_ok (env : Builtins) (term : String) (l : List Game)
    (h : ∀ g ∈ l, hasStringTitle g = true) :
    filterTitles env term l = Except.ok (l.filter (titleIncludes env term)) := by
  induction l with
  | nil => rfl
  | cons g rest ih =>
    have h1 := h g (List.mem_cons_self _ _)
    have h2 := ih (fun x hx => h x (List.mem_cons_of_mem _ hx))
    rw [filterTitles, titleMatches_of_string h1, h2]
    by_cases hk : titleIncludes env term g = true
    · simp [bind, Except.bind, pure, Except.pure, hk]
    · simp [bind, Except.bind, pure, Except.pure, hk]

theorem sortGames_perm (env : Builtins) (sortBy : String) (l : List Game)
    (h : ∀ g ∈ l, hasStringTitle g = true) :
    ∃ sorted, sortGames env sortBy l = Except.ok sorted ∧ sorted.Perm l := by
  unfold sortGames
  split
  · have hall : l.all hasStringTitle = true := List.all_eq_true.mpr h
    simp only [hall, Bool.or_true, if_true]
    exact ⟨_, rfl, jsSort_perm _ l⟩
  · exact ⟨_, rfl, jsSort_perm _ l⟩
  · exact ⟨_, rfl, jsSort_perm _ l⟩
  · exact ⟨_, rfl, jsSort_perm _ l⟩
  · exact ⟨_, rfl, jsSort_perm _ l⟩
  · exact ⟨_, rfl, List.Perm.refl l⟩

/-- C6 (amended): over a collection whose titles are strings, `filterGames` returns a
list that holds exactly the records whose title, lower-cased by `toLowerCase`, contains
the search text lower-cased by `toLowerCase` and with the white space at its two ends
removed; a search text that is empty, or only white space, keeps every record; and the
lists returned for two sort keys hold the same records, each as often.  This holds
whatever the built-in functions are. -/
theorem filterGames_retains (env : Builtins) (allGames : List Game)
    (searchValue sortBy : String) (h : ∀ g ∈ allGames, hasStringTitle g = true) :
    ∃ visible : List Game,
      filterGames env allGames searchValue sortBy = Except.ok visible ∧
      visible.Perm
        (allGames.filter (titleIncludes env (trim (env.toLowerCase searchValue)))) ∧
      (∀ g, g ∈ visible ↔
        g ∈ allGames ∧ ∃ t, g.title = JVal.str t ∧
          includes (env.toLowerCase t) (trim (env.toLowerCase searchValue)) = true) ∧
      (trim (env.toLowerCase searchValue) = "" → visible.Perm allGames) ∧
      (∀ otherKey : String, ∃ other : List Game,
        filterGames env allGames searchValue otherKey = Except.ok other ∧
          other.Perm visible) := by
  have hf := filterTitles_ok env (trim (env.toLowerCase searchValue)) allGames h
  have hsub : ∀ g ∈ allGames.filter (titleIncludes env (trim (env.toLowerCase searchValue))),
      hasStringTitle g = true := fun g hg => h g (List.mem_filter.mp hg).1
  have hrun : ∀ key : String, ∃ l, filterGames env allGames searchValue key = Except.ok l ∧
      l.Perm (allGames.filter (titleIncludes env (trim (env.toLowerCase searchValue)))) := by
    intro key
    obtain ⟨sorted, hs, hp⟩ := sortGames_perm env key _ hsub
    refine ⟨sorted, ?_, hp⟩
    unfold filterGames
    simp only [hf, bind, Except.bind]
    exact hs
  obtain ⟨visible, hv, hp⟩ := hrun sortBy
  refine ⟨visible, hv, hp, ?_, ?_, ?_⟩
  · intro g
    rw [hp.mem_iff, List.mem_filter]
    constructor
    · rintro ⟨hg, hinc⟩
      refine ⟨hg, ?_⟩
      unfold titleIncludes at hinc
      cases ht : g.title <;> rw [ht] at hinc <;> simp at hinc
      exact ⟨_, rfl, hinc⟩
    · rintro ⟨hg, t, ht, hinc⟩
      refine ⟨hg, ?_⟩
      unfold titleIncludes
      rw [ht]
      exact hinc
  · intro he
    rw [he] at hp
    have hall : allGames.filter (titleIncludes env "") = allGames := by
      apply List.filter_eq_self.mpr
      intro g hg
      have hs := h g hg
      unfold hasStringTitle at hs
      unfold titleIncludes
      cases ht : g.title <;> rw [ht] at hs <;> simp at hs ⊢
      exact includes_empty _
    rw [hall] at hp
    exact hp
  · intro otherKey
    obtain ⟨other, ho, hpo⟩ := hrun otherKey
    exact ⟨other, ho, hpo.trans hp.symm⟩

theorem filterGames_retains_witness :
    (∀ g ∈ gamesScenarioE, hasStringTitle g = true) ∧
      (filterGames exampleBuiltins gamesScenarioE "Zelda" "name").toOption.map titlesOf
        = some [some "The Legend of Zelda", some "zelda 2"] ∧
      (filterGames exampleBuiltins gamesScenarioE "Zelda" "priceDesc").toOption.map titlesOf
        = some [some "The Legend of Zelda", some "zelda 2"] ∧
      ∃ visible : List Game,
        filterGames exampleBuiltins gamesScenarioE "Zelda" "name" = Except.ok visible ∧
        visible.Perm
          (gamesScenarioE.filter
            (titleIncludes exampleBuiltins (trim (exampleBuiltins.toLowerCase "Zelda")))) ∧
        (∀ g, g ∈ visible ↔
          g ∈ gamesScenarioE ∧ ∃ t, g.title = JVal.str t ∧
            includes (exampleBuiltins.toLowerCase t)
              (trim (exampleBuiltins.toLowerCase "Zelda")) = true) ∧
        (trim (exampleBuiltins.toLowerCase "Zelda") = "" → visible.Perm gamesScenarioE) ∧
        (∀ otherKey : String, ∃ other : List Game,
          filterGames exampleBuiltins gamesScenarioE "Zelda" otherKey = Except.ok other ∧
            other.Perm visible) :=
  ⟨by decide!, by decide!, by decide!,
    filterGames_retains exampleBuiltins gamesScenarioE "Zelda" "name" (by decide!)⟩

/-- C6 as stated fails: with the search text "Zelda " (a space at the end) the record
titled "The Legend of Zelda" is retained, though its lower-cased title does not contain
the lower-cased search text.  The texts are ASCII, on which every `toLowerCase` agrees
with the one of the example. -/
theorem filterGames_trims_search_text :
    (filterGames exampleBuiltins gamesScenarioE "Zelda " "priceAsc").toOption.map titlesOf
        = some [some "The Legend of Zelda", some "zelda 2"] ∧
      includes (exampleBuiltins.toLowerCase "The Legend of Zelda")
        (exampleBuiltins.toLowerCase "Zelda ") = false ∧
      isAscii "The Legend of Zelda" = true ∧ isAscii "zelda 2" = true ∧
      isAscii "Mario" = true ∧ isAscii "Zelda " = true := by
  refine ⟨?_, ?_, ?_, ?_, ?_, ?_⟩ <;> decide!

/-! ## The regular price as the largest qualifying number -/

theorem exists_map_val (l : List JSNum) (h : ∀ x ∈ l, x ≠ JSNum.nan) :
    ∃ l' : List JNum, l = l'.map JSNum.val := by
  induction l with
  | nil => exact ⟨[], rfl⟩
  | cons x rest ih =>
    obtain ⟨l', hl'⟩ := ih (fun y hy => h y (List.mem_cons_of_mem _ hy))
    cases x with
    | nan => exact absurd rfl (h JSNum.nan (List.mem_cons_self _ _))
    | val v => exact ⟨v :: l', by rw [hl']; rfl⟩

theorem keeps_desc_iff (a b : JNum) :
    keeps (fun x y : JNum => JSNum.sub (JSNum.val y) (JSNum.val x)) a b ↔ b ≤ a := by
  unfold keeps
  rw [isPos_sub_val, JNum.le_iff_ble]
  simp

theorem sortedNumbers_desc (s : String) (h : ∀ x ∈ extractNumbers s, x ≠ JSNum.nan) :
    (sortedNumbers s).Pairwise (fun a b => JSNum.gt b a = false) := by
  obtain ⟨l', hl'⟩ := exists_map_val _ h
  have hmap : sortedNumbers s
      = (l'.insertionSort
          (keeps (fun x y : JNum => JSNum.sub (JSNum.val y) (JSNum.val x)))).map JSNum.val := by
    unfold sortedNumbers jsSort
    rw [hl']
    exact (List.map_insertionSort _ (keeps (fun a b : JSNum => JSNum.sub b a)) JSNum.val l'
      (fun _ _ _ _ => Iff.rfl)).symm
  have ht : IsTotal JNum (keeps (fun x y : JNum => JSNum.sub (JSNum.val y) (JSNum.val x))) :=
    ⟨fun a b => by rw [keeps_desc_iff, keeps_desc_iff]; exact JNum.le_total' _ _⟩
  have hr : IsTrans JNum (keeps (fun x y : JNum => JSNum.sub (JSNum.val y) (JSNum.val x))) :=
    ⟨fun a b c => by
      rw [keeps_desc_iff, keeps_desc_iff, keeps_desc_iff]
      exact fun h₁ h₂ => JNum.le_trans' h₂ h₁⟩
  have hs := List.sorted_insertionSort
    (keeps (fun x y : JNum => JSNum.sub (JSNum.val y) (JSNum.val x))) l'
  rw [hmap, List.pairwise_map]
  refine List.Pairwise.imp ?_ hs
  intro a b hab
  have hba : b ≤ a := (keeps_desc_iff a b).mp hab
  rw [JNum.le_iff_ble] at hba
  simp [JSNum.gt, hba]

theorem gt_irrefl (r : JSNum) : JSNum.gt r r = false := by
  cases r with
  | nan => rfl
  | val x => cases x <;> simp [JSNum.gt, JNum.ble]

theorem find?_sortedNumbers_largest (s : String) (p r : JSNum)
    (h : ∀ x ∈ extractNumbers s, x ≠ JSNum.nan)
    (hf : (sortedNumbers s).find? (fun n => JSNum.gt n p) = some r) :
    ∀ n ∈ extractNumbers s, JSNum.gt n p = true → JSNum.gt n r = false := by
  intro n hn hnp
  have hsorted := sortedNumbers_desc s h
  obtain ⟨-, as, bs, hsplit, has⟩ := List.find?_eq_some.mp hf
  have hmem : n ∈ sortedNumbers s := (jsSort_perm _ _).symm.subset hn
  rw [hsplit] at hmem hsorted
  rcases List.mem_append.mp hmem with hin | hin
  · have := has n hin
    simp [hnp] at this
  · rcases List.mem_cons.mp hin with rfl | hin
    · exact gt_irrefl _
    · have h2 := (List.pairwise_append.mp hsorted).2.1
      exact (List.pairwise_cons.mp h2).1 n hin

theorem normalizeGame_regularPrice_facts (env : Builtins) (raw : JVal) (g : Game) (r : JSNum)
    (hg : normalizeGame env raw = Except.ok g) (hr : g.regularPrice = some r) :
    ∃ b s, g.bestOffer = some b ∧ chosenRaw g.offers = JVal.str s ∧
      r ∈ extractNumbers s ∧ JSNum.gt r (priceNum b.price) = true ∧
      ((∀ x ∈ extractNumbers s, x ≠ JSNum.nan) →
        ∀ n ∈ extractNumbers s, JSNum.gt n (priceNum b.price) = true →
          JSNum.gt n r = false) := by
  obtain ⟨extracted, -, -, -, -, hrp, -, -⟩ := normalizeGame_ok hg
  rw [hr] at hrp
  cases hb : g.bestOffer with
  | none => rw [hb] at hrp; simp [regularPriceOf] at hrp
  | some b =>
    rw [hb] at hrp
    obtain ⟨hgt, s, hs, hmem⟩ := regularPriceOf_some hrp
    refine ⟨b, s, rfl, hs, (jsSort_perm _ _).subset hmem, hgt, ?_⟩
    intro hnan
    have hlen : g.offers.length > 0 := by
      by_contra hl
      simp [regularPriceOf, hl] at hrp
    have hfind : (sortedNumbers s).find? (fun n => JSNum.gt n (priceNum b.price)) = some r := by
      simp only [regularPriceOf, hlen, if_true, inferRegularPrice, hs] at hrp
      injection hrp
    exact find?_sortedNumbers_largest s _ r hnan hfind

/-- C1: whenever `normalizeGame` returns a `regularPrice` that is not `null`, it is one
of the numbers extracted from the price text that was read and is strictly greater than
`bestOffer.price`; and when every extracted run of digits and dots is a number, no
extracted number greater than `bestOffer.price` is greater than it, so it is the largest
of them.  But a run that is not a number (here "...") breaks the descending sort: for the
price 4 and the text "$5.00 ... $10.00" the regular price is 5, though 10 is extracted
and is greater than the price. -/
theorem normalizeGame_regularPrice_not_largest :
    (∀ (env : Builtins) (raw : JVal) (g : Game) (r : JSNum),
        normalizeGame env raw = Except.ok g →
        g.regularPrice = some r →
        ∃ b s, g.bestOffer = some b ∧ chosenRaw g.offers = JVal.str s ∧
          r ∈ extractNumbers s ∧ JSNum.gt r (priceNum b.price) = true ∧
          ((∀ x ∈ extractNumbers s, x ≠ JSNum.nan) →
            ∀ n ∈ extractNumbers s, JSNum.gt n (priceNum b.price) = true →
              JSNum.gt n r = false)) ∧
      (∀ env : Builtins,
        (normalizeGame env rawDottedText).toOption.map (fun g => g.regularPrice)
          = some (some (JSNum.ofRat 5))) ∧
      (∀ env : Builtins,
        (normalizeGame env rawDottedText).toOption.map
            (fun g => g.bestOffer.map (fun b => b.price))
          = some (some (some (JNum.fin 4)))) ∧
      extractNumbers "$5.00 ... $10.00" = [JSNum.ofRat 5, JSNum.nan, JSNum.ofRat 10] ∧
      JSNum.gt (JSNum.ofRat 10) (JSNum.ofRat 4) = true ∧
      JSNum.gt (JSNum.ofRat 10) (JSNum.ofRat 5) = true := by
  have hurl : (rawDottedText.get "FuenteInicialUrl").truthy = false := by decide!
  refine ⟨?_, ?_, ?_, by decide!, by decide!, by decide!⟩
  · intro env raw g r hg hr
    exact normalizeGame_regularPrice_facts env raw g r hg hr
  · intro env
    rw [normalizeGame_builtins_irrelevant env exampleBuiltins _ hurl]
    decide!
  · intro env
    rw [normalizeGame_builtins_irrelevant env exampleBuiltins _ hurl]
    decide!

end Paralellism
